import Mathlib

/-!
Verification of the quboin QUBO compilation layer.

Embedding conventions, used throughout this development:

* Python `dict[tuple[int, int], int]` coefficient maps become association
  lists (`Qubo`), listing entries in the exact insertion order of the
  source loops.  Wherever the source performs a plain dict assignment the
  key is fresh (each loop writes pairwise distinct keys), so those writes
  are embedded as list construction; the augmented assignments `+=` / `-=`
  on already-present keys are embedded by `qadd`, and plain reassignment
  inside a fold by `qset`.
* A binary variable assignment is a total map `ℕ → Bool`; `energy` is the
  quadratic form induced by a coefficient map.
* Python integers are arbitrary precision, so integer values are embedded
  as `ℤ` with no overflow concerns; variable indices are `ℕ`.
* A `networkx` undirected graph enters a compiler only through the sorted
  node indexing `0..n-1` and its edge iterator.  It is embedded as the
  node count `n` together with an edge list over indices in which each
  undirected edge occurs exactly once, in either orientation.
* File contents are embedded as lists of lines, each line a `List Char`.
-/

namespace Quboin

/-- Binary 0/1 value of variable `i` under assignment `z`. -/
def bval (z : ℕ → Bool) (i : ℕ) : ℤ := if z i then 1 else 0

/-- A QUBO coefficient map: association list from index pairs `(i, j)` to
integer coefficients, the shallow embedding of the Python
`dict[tuple[int, int], int]` return type of every compiler. -/
abbrev Qubo := List ((ℕ × ℕ) × ℤ)

/-- Dictionary lookup `qubo.get((i, j))`. -/
def qget : Qubo → ℕ × ℕ → Option ℤ
  | [], _ => none
  | e :: q, k => if e.1 = k then some e.2 else qget q k

/-- Augmented dict assignment `qubo[(i, j)] += v` (or `-=`, with negated
`v`).  At every call site of the source the key is already present; if it
is not, the entry is appended, which keeps the operation total. -/
def qadd : Qubo → ℕ × ℕ → ℤ → Qubo
  | [], k, v => [(k, v)]
  | e :: q, k, v => if e.1 = k then (k, e.2 + v) :: q else e :: qadd q k v

/-- Plain dict assignment `qubo[(i, j)] = v` inside a fold: overwrite the
entry if the key is present, otherwise append it. -/
def qset : Qubo → ℕ × ℕ → ℤ → Qubo
  | [], k, v => [(k, v)]
  | e :: q, k, v => if e.1 = k then (k, v) :: q else e :: qset q k v

/-- Energy of a coefficient map under a binary assignment: the value of
the quadratic pseudo-Boolean polynomial, `sum of c * z_i * z_j` over the
entries `((i, j), c)`. -/
def energy (q : Qubo) (z : ℕ → Bool) : ℤ :=
  (q.map (fun e => e.2 * bval z e.1.1 * bval z e.1.2)).sum

/-- Integer sum of `f` over a list of indices; the workhorse for loop
summations. -/
def lsum (l : List ℕ) (f : ℕ → ℤ) : ℤ := (l.map f).sum

/-- Weighted sum of selected variables: `sum over i < n of w i * z i`. -/
def wsum (w : ℕ → ℤ) : ℕ → (ℕ → Bool) → ℤ
  | 0, _ => 0
  | n + 1, z => wsum w n z + w n * bval z n

/-- Weighted sum over selected pairs: `sum over i < j < n of w i * w j * z i * z j`. -/
def triSum (w : ℕ → ℤ) : ℕ → (ℕ → Bool) → ℤ
  | 0, _ => 0
  | n + 1, z => triSum w n z + w n * bval z n * wsum w n z

/-- Number of selected variables among `0..n-1`, as an integer. -/
def cntTrue (n : ℕ) (z : ℕ → Bool) : ℤ := wsum (fun _ => 1) n z

/-- Exact floor of `log2`, meaningful for `capacity ≥ 1`.  The source
computes `m = int(log2(capacity))` through a C double; that value equals
this exact floor at every capacity evaluated concretely in this
development (such as `1` and `26`, where the conversion and the
logarithm are both exact), but for large capacities the float pipeline
can exceed the floor — see `pyFloatOfNat` and
`knapsack_aux_float_log2_failure`.  Fuel recursion keeps the definition
structurally recursive and hence kernel-computable. -/
def ilog2Aux : ℕ → ℕ → ℕ
  | 0, _ => 0
  | fuel + 1, c => if c < 2 then 0 else ilog2Aux fuel (c / 2) + 1

def ilog2 (c : ℕ) : ℕ := ilog2Aux c c

/-- The integer value of the IEEE-754 double nearest to `c`: round to 53
significant bits, ties to even.  This is CPython's int-to-double
conversion (`PyLong_AsDouble`), the first step of the source's
`log2(capacity)` call; overflow beyond the double range is not modelled
and is irrelevant at the sizes considered here. -/
def pyFloatOfNat (c : ℕ) : ℕ :=
  let sz := ilog2 c + 1
  if sz ≤ 53 then c
  else
    let ulp := 2 ^ (sz - 53)
    let q := c / ulp
    let r := c % ulp
    if 2 * r < ulp then q * ulp
    else if ulp < 2 * r then (q + 1) * ulp
    else if q % 2 = 0 then q * ulp
    else (q + 1) * ulp

/-- Weight of the extra slack bit: `capacity - (2**m - 1)` with `m` the
exact floor-log2 of the capacity. -/
def remainderWeight (capacity : ℕ) : ℤ :=
  (capacity : ℤ) - (2 ^ ilog2 capacity - 1)

/-- List indexing `l[i]`; all call sites index within bounds, so the
default value `0` is never produced there. -/
def listVal (l : List ℤ) (i : ℕ) : ℤ := l.getD i 0

/-- The size-constraint double loop shared verbatim by `build_clique_k`
(`k` = clique size) and `build_n_queen` (`k` = number of queens): linear
term `alpha * (1 - 2*k)` on every diagonal and `2 * alpha` on every pair
`i < j`.  This is the completeness/one-hot sub-expression of the spec. -/
def sizeConstraintBlock (n k : ℕ) (alpha : ℤ) : Qubo :=
  (List.range n).flatMap (fun i =>
    ((i, i), alpha * (1 - 2 * (k : ℤ))) ::
      (List.range' (i + 1) (n - (i + 1))).map (fun j => ((i, j), 2 * alpha)))

/-- Embedding of `build_clique_k` (src/quboin/clique.py): the size
constraint block followed by `qubo[(i, j)] -= beta` for every edge, with
the index pair swapped into nondecreasing order exactly as in the source. -/
def build_clique_k (n : ℕ) (edges : List (ℕ × ℕ)) (k : ℕ) (alpha beta : ℤ) : Qubo :=
  edges.foldl (fun q e =>
    if e.1 > e.2 then qadd q (e.2, e.1) (-beta) else qadd q (e.1, e.2) (-beta))
    (sizeConstraintBlock n k alpha)

/-- Embedding of `build_n_queen` (src/quboin/n_queens.py): the same size
constraint block (with `k` the number of queens `n`), then
`qubo[(i, j)] += alpha` per attack-graph edge. -/
def build_n_queen (node_number : ℕ) (edges : List (ℕ × ℕ)) (n : ℕ) (alpha : ℤ) : Qubo :=
  edges.foldl (fun q e =>
    if e.1 > e.2 then qadd q (e.2, e.1) alpha else qadd q (e.1, e.2) alpha)
    (sizeConstraintBlock node_number n alpha)

/-- Degree of node `v` in the edge list (`graph.degree(node)`); the
claims proved about `build_min_vertex_cover` do not depend on this value. -/
def degree (edges : List (ℕ × ℕ)) (v : ℕ) : ℤ :=
  (edges.countP (fun e => decide (e.1 = v ∨ e.2 = v)) : ℤ)

/-- Embedding of `build_min_vertex_cover` (src/quboin/vertex_cover.py):
diagonal `beta - alpha*degree` per node, then `qubo[(i, j)] = alpha` per
edge (plain assignment, hence `qset`). -/
def build_min_vertex_cover (n : ℕ) (edges : List (ℕ × ℕ)) (alpha beta : ℤ) : Qubo :=
  edges.foldl (fun q e =>
    if e.1 > e.2 then qset q (e.2, e.1) alpha else qset q (e.1, e.2) alpha)
    ((List.range n).map (fun i => ((i, i), beta - alpha * degree edges i)))

/-- The composite variable index `node_start + color` with
`node_start = idx * num_colors`, used by `build_graph_coloring`. -/
def composite_index (node_index group_size sub_index : ℕ) : ℕ :=
  node_index * group_size + sub_index

/-- Neighbors of `idx` with a strictly larger index, as produced by the
source's `for neighbor in graph.neighbors(node): if neighbor_idx > idx`.
The edge list holds each undirected edge once, in either orientation. -/
def neighborsAbove (edges : List (ℕ × ℕ)) (idx : ℕ) : List ℕ :=
  edges.filterMap (fun e =>
    if e.1 = idx ∧ idx < e.2 then some e.2
    else if e.2 = idx ∧ idx < e.1 then some e.1
    else none)

/-- Embedding of `build_graph_coloring` (src/quboin/graph_coloring.py):
per node, the one-hot block over colors, then one `beta` entry per color
for every neighbor of larger index. -/
def build_graph_coloring (n : ℕ) (edges : List (ℕ × ℕ)) (num_colors : ℕ)
    (alpha beta : ℤ) : Qubo :=
  (List.range n).flatMap (fun idx =>
    ((List.range num_colors).flatMap (fun color =>
      ((composite_index idx num_colors color, composite_index idx num_colors color),
          -alpha) ::
        (List.range' (color + 1) (num_colors - (color + 1))).map (fun c =>
          ((composite_index idx num_colors color, composite_index idx num_colors c),
            2 * alpha)))) ++
    ((neighborsAbove edges idx).flatMap (fun neighbor_idx =>
      (List.range num_colors).map (fun color =>
        ((composite_index idx num_colors color,
          composite_index neighbor_idx num_colors color), beta)))))

/-- Embedding of `build_knapsack` (src/quboin/knapsack.py), the simple
subset-sum relaxation without auxiliary bits. -/
def build_knapsack (weights profits : List ℤ) (capacity : ℕ) (alpha beta : ℤ) : Qubo :=
  (List.range weights.length).flatMap (fun i =>
    ((i, i), -beta * listVal profits i + alpha * listVal weights i ^ 2 -
        2 * alpha * (capacity : ℤ) * listVal weights i) ::
      (List.range' (i + 1) (weights.length - (i + 1))).map (fun j =>
        ((i, j), 2 * alpha * listVal weights i * listVal weights j)))

/-- The item loop of `build_knapsack_with_aux`: per item its diagonal,
the item-item entries, the item-auxiliary entries and the item-remainder
entry, in source order. -/
def knapsackItemsBlock (weights profits : List ℤ) (n m : ℕ)
    (remainder alpha beta : ℤ) : Qubo :=
  (List.range n).flatMap (fun i =>
    (((i, i), -beta * listVal profits i + alpha * listVal weights i ^ 2) ::
      (List.range' (i + 1) (n - (i + 1))).map (fun j =>
        ((i, j), 2 * alpha * listVal weights i * listVal weights j))) ++
    ((List.range m).map (fun k =>
        ((i, k + n), -alpha * listVal weights i * 2 ^ (k + 1))) ++
      [((i, n + m), -2 * alpha * listVal weights i * remainder)]))

/-- The auxiliary-bit loop of `build_knapsack_with_aux`: per bit its
diagonal, the auxiliary-auxiliary entries and the auxiliary-remainder
entry, in source order. -/
def knapsackAuxBlock (n m : ℕ) (remainder alpha : ℤ) : Qubo :=
  (List.range m).flatMap (fun i =>
    (((i + n, i + n), alpha * 2 ^ (2 * i)) ::
      (List.range' (i + 1) (m - (i + 1))).map (fun j =>
        ((i + n, j + n), alpha * 2 ^ (i + j + 1)))) ++
    [((i + n, n + m), alpha * 2 ^ (i + 1) * remainder)])

/-- The body of `build_knapsack_with_aux` (src/quboin/knapsack.py) given
the number `m` of plain auxiliary bits the runtime computed as
`int(log2(capacity))`: item loop, then auxiliary-bit loop, then the
remainder diagonal, in the exact loop order of the source, with
`remainder = capacity - (2**m - 1)`. -/
def build_knapsack_with_aux_m (weights profits : List ℤ) (capacity m : ℕ)
    (alpha beta : ℤ) : Qubo :=
  let n := weights.length
  let remainder : ℤ := (capacity : ℤ) - (2 ^ m - 1)
  knapsackItemsBlock weights profits n m remainder alpha beta ++
    knapsackAuxBlock n m remainder alpha ++
    [((n + m, n + m), alpha * remainder ^ 2)]

/-- Embedding of `build_knapsack_with_aux` (src/quboin/knapsack.py) with
`m = int(log2(capacity))` taken at its exact floor value `ilog2
capacity`.  The source obtains that exponent through a C double, which
agrees with the exact floor at the concrete capacities evaluated in this
development but can exceed it for large capacities;
`knapsack_aux_float_log2_failure` works from `build_knapsack_with_aux_m`
directly with such a divergent runtime value. -/
def build_knapsack_with_aux (weights profits : List ℤ) (capacity : ℕ)
    (alpha beta : ℤ) : Qubo :=
  build_knapsack_with_aux_m weights profits capacity (ilog2 capacity) alpha beta

/-- Glue an item-bit assignment `x` (indices `0..n-1`) with an
auxiliary-bit assignment `b` (indices `n..`). -/
def combineAssign (n : ℕ) (x b : ℕ → Bool) : ℕ → Bool :=
  fun i => if i < n then x i else b (i - n)

/-- Value represented by the auxiliary bits: binary-weighted bits at
indices `n..n+m-1` plus the remainder-weight bit at index `n+m`. -/
def auxValue (n m : ℕ) (r : ℤ) (z : ℕ → Bool) : ℤ :=
  wsum (fun k => 2 ^ k) m (fun k => z (n + k)) + r * bval z (n + m)

/-- The same slack value read from an auxiliary assignment indexed from
`0` (bit `m` is the remainder bit). -/
def auxRawValue (m : ℕ) (r : ℤ) (b : ℕ → Bool) : ℤ :=
  wsum (fun k => 2 ^ k) m b + r * bval b m

/-- Indicator sum over an edge list: the number of edges whose two
endpoints are both selected, as an integer-valued sum of products. -/
def edgeSum (edges : List (ℕ × ℕ)) (z : ℕ → Bool) : ℤ :=
  (edges.map (fun e => bval z e.1 * bval z e.2)).sum

/-- All unordered pairs `(i, j)` with `i < j < n`, grouped by the larger
index (a proof-side enumeration, only used for counting). -/
def pairList : ℕ → List (ℕ × ℕ)
  | 0 => []
  | n + 1 => pairList n ++ (List.range n).map (fun i => (i, n))

/-- The selected nodes form a clique: any two distinct selected indices
below `n` are joined by a (canonically oriented) edge. -/
def IsCliqueSel (n : ℕ) (edges : List (ℕ × ℕ)) (z : ℕ → Bool) : Prop :=
  ∀ b < n, ∀ a < b, z a = true → z b = true → (a, b) ∈ edges

/-- The offset `alpha*k^2 + beta*k*(k-1)/2` stated by the clique
compiler's documentation. -/
def cliqueOffset (k : ℕ) (alpha beta : ℤ) : ℤ :=
  alpha * (k : ℤ) ^ 2 + beta * ((k * (k - 1) / 2 : ℕ) : ℤ)

/-- Exactly one color is selected for every node (the one-hot rule of the
coloring encoder). -/
def OneColorEach (n num_colors : ℕ) (z : ℕ → Bool) : Prop :=
  ∀ v < n, cntTrue num_colors (fun c => z (composite_index v num_colors c)) = 1

/-- No edge has both endpoints sharing a selected color. -/
def ConflictFree (edges : List (ℕ × ℕ)) (num_colors : ℕ) (z : ℕ → Bool) : Prop :=
  ∀ e ∈ edges, ∀ c < num_colors,
    ¬(z (composite_index e.1 num_colors c) = true ∧
      z (composite_index e.2 num_colors c) = true)

/-- Validation failures of `load_knapsack_data`, one constructor per
`ValueError` branch of the source, in source order. -/
inductive KnapsackDataError where
  | capacityFileEmpty
  | weightsFileEmpty
  | profitsFileEmpty
  | lengthMismatch
  | nonPositiveWeight
  | negativeCapacity
  | capacityBelowMinWeight
  deriving DecidableEq, Repr

/-- Python's `min` of a nonempty list; the `[]` case is unreachable at
the call site (guarded by the emptiness check). -/
def pyMin (l : List ℤ) : ℤ :=
  match l with
  | [] => 0
  | x :: xs => xs.foldl min x

/-- Embedding of `load_knapsack_data` (src/quboin/knapsack.py) applied to
the three already-parsed integer lists; `ValueError` becomes `Except.error`
with the corresponding `KnapsackDataError` constructor. -/
def load_knapsack_data (capacity_list weights profits : List ℤ) :
    Except KnapsackDataError (ℤ × List ℤ × List ℤ) :=
  if capacity_list = [] then .error .capacityFileEmpty
  else if weights = [] then .error .weightsFileEmpty
  else if profits = [] then .error .profitsFileEmpty
  else
    let capacity := capacity_list.headD 0
    if weights.length ≠ profits.length then .error .lengthMismatch
    else if weights.any (fun w => decide (w ≤ 0)) then .error .nonPositiveWeight
    else if capacity < 0 then .error .negativeCapacity
    else if capacity < pyMin weights then .error .capacityBelowMinWeight
    else .ok (capacity, weights, profits)

/-- The validation conditions in the priority order stated by the spec
(emptiness of capacity, weights, profits; length mismatch; non-positive
weight; negative capacity; capacity below minimum weight), paired with
the error each one raises.  This is the spec-side description used for
the refinement statement about `load_knapsack_data`. -/
def loadKnapsackChecks (capacity_list weights profits : List ℤ) :
    List (Bool × KnapsackDataError) :=
  let capacity := capacity_list.headD 0
  [(capacity_list.isEmpty, .capacityFileEmpty),
   (weights.isEmpty, .weightsFileEmpty),
   (profits.isEmpty, .profitsFileEmpty),
   (decide (weights.length ≠ profits.length), .lengthMismatch),
   (weights.any (fun w => decide (w ≤ 0)), .nonPositiveWeight),
   (decide (capacity < 0), .negativeCapacity),
   (decide (capacity < pyMin weights), .capacityBelowMinWeight)]

/-- Spec-side loader: raise the error of the first condition that holds,
otherwise return the parsed triple unchanged. -/
def loadKnapsackDataSpec (capacity_list weights profits : List ℤ) :
    Except KnapsackDataError (ℤ × List ℤ × List ℤ) :=
  match (loadKnapsackChecks capacity_list weights profits).find? (fun c => c.1) with
  | some c => .error c.2
  | none => .ok (capacity_list.headD 0, weights, profits)

/-- Uncaught exceptions of `read_dimacs_graph`: `IndexError` from
`parts[0]` on a tokenless line, and the two raised `ValueError`s. -/
inductive DimacsError where
  | indexError
  | malformedEdgeLine
  | invalidEdgeEndpoints
  deriving DecidableEq, Repr

/-- Python `str.split()` on a line of characters: split on whitespace
runs, discarding empty pieces.  Written with an accumulator to stay
structurally recursive. -/
def pyTokensAux : List Char → List Char → List (List Char)
  | [], acc => if acc = [] then [] else [acc.reverse]
  | c :: rest, acc =>
    if c.isWhitespace then
      if acc = [] then pyTokensAux rest [] else acc.reverse :: pyTokensAux rest []
    else pyTokensAux rest (c :: acc)

def pyTokens (line : List Char) : List (List Char) := pyTokensAux line []

/-- Value of a nonempty digit string (accumulator form). -/
def digitsVal : List Char → ℕ → Option ℕ
  | [], acc => some acc
  | c :: r, acc =>
    if c.isDigit then digitsVal r (10 * acc + (c.toNat - 48)) else none

/-- Model of Python `int(token)` on whitespace-free tokens: optional
sign followed by at least one digit. -/
def parseInt (l : List Char) : Option ℤ :=
  match l with
  | [] => none
  | '-' :: r => if r = [] then none else (digitsVal r 0).map (fun v => -(v : ℤ))
  | '+' :: r => if r = [] then none else (digitsVal r 0).map (fun v => (v : ℤ))
  | _ => (digitsVal l 0).map (fun v => (v : ℤ))

/-- One iteration of the line loop of `read_dimacs_graph`
(src/quboin/utils.py): skip the line (`ok none`), produce an edge
(`ok (some (u, v))`), or raise.  The emptiness test `not line` only
fires on the truly empty string; a whitespace-only line falls through,
yields zero tokens, and indexing `parts[0]` raises `IndexError`. -/
def processLine (line : List Char) : Except DimacsError (Option (ℤ × ℤ)) :=
  if line = [] ∨ line.head? = some 'c' then .ok none
  else
    match pyTokens line with
    | [] => .error .indexError
    | p0 :: ps =>
      if p0 = ['e'] then
        if (p0 :: ps).length ≠ 3 then .error .malformedEdgeLine
        else
          match ps with
          | [a, b] =>
            match parseInt a, parseInt b with
            | some u, some v => .ok (some (u, v))
            | _, _ => .error .invalidEdgeEndpoints
          | _ => .error .malformedEdgeLine
      else .ok none

def readDimacsAux : List (ℤ × ℤ) → List (List Char) → Except DimacsError (List (ℤ × ℤ))
  | acc, [] => .ok acc
  | acc, line :: rest =>
    match processLine line with
    | .error e => .error e
    | .ok none => readDimacsAux acc rest
    | .ok (some edge) => readDimacsAux (acc ++ [edge]) rest

/-- Embedding of `read_dimacs_graph` (src/quboin/utils.py) applied to the
file's lines.  The graph is kept as the list of accepted edges; the
`networkx` deduplication of repeated edges is irrelevant to the error
behaviour studied here. -/
def read_dimacs_graph (lines : List (List Char)) : Except DimacsError (List (ℤ × ℤ)) :=
  readDimacsAux [] lines

theorem bval_mul_self (z : ℕ → Bool) (i : ℕ) : bval z i * bval z i = bval z i := by
  unfold bval; by_cases h : z i <;> simp [h]

theorem bval_nonneg (z : ℕ → Bool) (i : ℕ) : 0 ≤ bval z i := by
  unfold bval; by_cases h : z i <;> simp [h]

theorem bval_le_one (z : ℕ → Bool) (i : ℕ) : bval z i ≤ 1 := by
  unfold bval; by_cases h : z i <;> simp [h]

theorem bval_sq (z : ℕ → Bool) (i : ℕ) : bval z i ^ 2 = bval z i := by
  rw [sq, bval_mul_self]

theorem bval_true {z : ℕ → Bool} {i : ℕ} (h : z i = true) : bval z i = 1 := by
  simp [bval, h]

theorem bval_false {z : ℕ → Bool} {i : ℕ} (h : z i = false) : bval z i = 0 := by
  simp [bval, h]

theorem energy_nil (z : ℕ → Bool) : energy [] z = 0 := rfl

theorem energy_cons (e : (ℕ × ℕ) × ℤ) (q : Qubo) (z : ℕ → Bool) :
    energy (e :: q) z = e.2 * bval z e.1.1 * bval z e.1.2 + energy q z := by
  simp [energy]

theorem energy_append (q₁ q₂ : Qubo) (z : ℕ → Bool) :
    energy (q₁ ++ q₂) z = energy q₁ z + energy q₂ z := by
  simp [energy]

theorem energy_singleton (e : (ℕ × ℕ) × ℤ) (z : ℕ → Bool) :
    energy [e] z = e.2 * bval z e.1.1 * bval z e.1.2 := by
  simp [energy]

theorem energy_qadd (q : Qubo) (k : ℕ × ℕ) (v : ℤ) (z : ℕ → Bool) :
    energy (qadd q k v) z = energy q z + v * bval z k.1 * bval z k.2 := by
  induction q with
  | nil => simp [qadd, energy]
  | cons e q ih =>
      by_cases h : e.1 = k
      · subst h
        simp [qadd, energy_cons]
        ring
      · simp [qadd, h, energy_cons, ih]
        ring

theorem energy_flatMap {α : Type} (l : List α) (f : α → Qubo) (z : ℕ → Bool) :
    energy (l.flatMap f) z = (l.map (fun a => energy (f a) z)).sum := by
  induction l with
  | nil => rfl
  | cons a l ih => simp [List.flatMap_cons, energy_append, ih]

theorem lsum_nil (f : ℕ → ℤ) : lsum [] f = 0 := rfl

theorem lsum_cons (a : ℕ) (l : List ℕ) (f : ℕ → ℤ) :
    lsum (a :: l) f = f a + lsum l f := by simp [lsum]

theorem lsum_append (l₁ l₂ : List ℕ) (f : ℕ → ℤ) :
    lsum (l₁ ++ l₂) f = lsum l₁ f + lsum l₂ f := by simp [lsum]

theorem lsum_congr {l : List ℕ} {f g : ℕ → ℤ} (h : ∀ i ∈ l, f i = g i) :
    lsum l f = lsum l g := by
  unfold lsum
  rw [List.map_congr_left h]

theorem lsum_add (l : List ℕ) (f g : ℕ → ℤ) :
    lsum l (fun i => f i + g i) = lsum l f + lsum l g := by
  induction l with
  | nil => simp [lsum]
  | cons a l ih => simp [lsum_cons, ih]; ring

theorem lsum_const_mul (l : List ℕ) (c : ℤ) (f : ℕ → ℤ) :
    lsum l (fun i => c * f i) = c * lsum l f := by
  induction l with
  | nil => simp [lsum]
  | cons a l ih => simp [lsum_cons, ih]; ring

theorem lsum_nonneg {l : List ℕ} {f : ℕ → ℤ} (h : ∀ i ∈ l, 0 ≤ f i) :
    0 ≤ lsum l f := by
  induction l with
  | nil => simp [lsum]
  | cons a l ih =>
      rw [lsum_cons]
      have h₁ := h a (List.mem_cons_self a l)
      have h₂ := ih (fun i hi => h i (List.mem_cons_of_mem a hi))
      omega

theorem lsum_const (n : ℕ) (c : ℤ) : lsum (List.range n) (fun _ => c) = n * c := by
  induction n with
  | zero => simp [lsum]
  | succ n ih =>
      rw [List.range_succ, lsum_append, ih]
      simp [lsum]
      ring

/-- If every term is at least `c` and the term at `v₀ < n` is at least
`c + δ`, the sum over `range n` is at least `n*c + δ`. -/
theorem lsum_lower_bound {n : ℕ} {F : ℕ → ℤ} {c δ : ℤ} {v₀ : ℕ}
    (h₀ : v₀ < n) (hall : ∀ v < n, c ≤ F v) (hv : c + δ ≤ F v₀) :
    (n : ℤ) * c + δ ≤ lsum (List.range n) F := by
  have key : δ ≤ lsum (List.range n) (fun v => F v - c) := by
    have hmem : (F v₀ - c) ∈ (List.range n).map (fun v => F v - c) :=
      List.mem_map.mpr ⟨v₀, List.mem_range.mpr h₀, rfl⟩
    have hpos : ∀ x ∈ (List.range n).map (fun v => F v - c), 0 ≤ x := by
      intro x hx
      rcases List.mem_map.mp hx with ⟨v, hv', rfl⟩
      have := hall v (List.mem_range.mp hv')
      omega
    have := List.single_le_sum hpos _ hmem
    have hδ : δ ≤ F v₀ - c := by omega
    unfold lsum
    omega
  have split : lsum (List.range n) (fun v => F v - c) =
      lsum (List.range n) F - (n : ℤ) * c := by
    have := lsum_add (List.range n) (fun v => F v - c) (fun _ => c)
    rw [lsum_const] at this
    have h2 : lsum (List.range n) (fun v => F v - c + c) = lsum (List.range n) F := by
      apply lsum_congr; intro i _; ring
    omega
  omega

theorem wsum_eq_lsum (w : ℕ → ℤ) (n : ℕ) (z : ℕ → Bool) :
    wsum w n z = lsum (List.range n) (fun i => w i * bval z i) := by
  induction n with
  | zero => simp [wsum, lsum]
  | succ n ih =>
      rw [List.range_succ, lsum_append, ← ih]
      simp [wsum, lsum]

theorem wsum_congr_assign {w : ℕ → ℤ} {n : ℕ} {z₁ z₂ : ℕ → Bool}
    (h : ∀ i < n, z₁ i = z₂ i) : wsum w n z₁ = wsum w n z₂ := by
  induction n with
  | zero => rfl
  | succ n ih =>
      have h₁ : ∀ i < n, z₁ i = z₂ i := fun i hi => h i (Nat.lt_succ_of_lt hi)
      simp [wsum, ih h₁, bval, h n (Nat.lt_succ_self n)]

theorem wsum_nonneg {w : ℕ → ℤ} {n : ℕ} {z : ℕ → Bool}
    (h : ∀ i < n, 0 ≤ w i) : 0 ≤ wsum w n z := by
  induction n with
  | zero => simp [wsum]
  | succ n ih =>
      have h₁ := ih (fun i hi => h i (Nat.lt_succ_of_lt hi))
      have h₂ : 0 ≤ w n * bval z n :=
        mul_nonneg (h n (Nat.lt_succ_self n)) (bval_nonneg z n)
      simp only [wsum]
      omega

/-- Expanding the square of a weighted sum of binary variables. -/
theorem sq_wsum (w : ℕ → ℤ) (n : ℕ) (z : ℕ → Bool) :
    wsum w n z ^ 2 = wsum (fun i => w i ^ 2) n z + 2 * triSum w n z := by
  induction n with
  | zero => simp [wsum, triSum]
  | succ n ih =>
      simp only [wsum, triSum]
      have hb := bval_sq z n
      linear_combination ih + (w n) ^ 2 * hb

/-- The inner-loop-over-`range'` form of the pair sum, as produced by the
nested loops of the compilers, equals `triSum`. -/
theorem tri_lsum (w : ℕ → ℤ) (z : ℕ → Bool) (K : ℕ) :
    lsum (List.range K) (fun i =>
        w i * bval z i *
          lsum (List.range' (i + 1) (K - (i + 1))) (fun j => w j * bval z j)) =
      triSum w K z := by
  induction K with
  | zero => simp [lsum, triSum]
  | succ K ih =>
      rw [List.range_succ, lsum_append]
      have hlast : lsum [K] (fun i =>
          w i * bval z i *
            lsum (List.range' (i + 1) (K + 1 - (i + 1))) (fun j => w j * bval z j)) = 0 := by
        simp [lsum]
      have hrows : lsum (List.range K) (fun i =>
          w i * bval z i *
            lsum (List.range' (i + 1) (K + 1 - (i + 1))) (fun j => w j * bval z j)) =
          lsum (List.range K) (fun i =>
            w i * bval z i *
              lsum (List.range' (i + 1) (K - (i + 1))) (fun j => w j * bval z j) +
            (w K * bval z K) * (w i * bval z i)) := by
        apply lsum_congr
        intro i hi
        have hiK : i < K := List.mem_range.mp hi
        have hlen : K + 1 - (i + 1) = (K - (i + 1)) + 1 := by omega
        have hconcat : List.range' (i + 1) (K + 1 - (i + 1)) =
            List.range' (i + 1) (K - (i + 1)) ++ [K] := by
          rw [hlen, List.range'_1_concat]
          have : i + 1 + (K - (i + 1)) = K := by omega
          rw [this]
        rw [hconcat, lsum_append]
        simp [lsum]
        ring
      rw [hrows, hlast, lsum_add, lsum_const_mul, ← wsum_eq_lsum, ih]
      simp [triSum]

theorem cntTrue_nonneg (n : ℕ) (z : ℕ → Bool) : 0 ≤ cntTrue n z :=
  wsum_nonneg (fun _ _ => by norm_num)

theorem two_triSum_one (n : ℕ) (z : ℕ → Bool) :
    2 * triSum (fun _ => 1) n z = cntTrue n z ^ 2 - cntTrue n z := by
  have h := sq_wsum (fun _ => 1) n z
  simp only [one_pow] at h
  unfold cntTrue
  omega

/-- Energy of a row of entries sharing the first index `a`, as emitted by
an inner loop `for j in js: qubo[(a, h j)] = g j`. -/
theorem energy_map_keys (l : List ℕ) (a : ℕ) (h : ℕ → ℕ) (g : ℕ → ℤ) (z : ℕ → Bool) :
    energy ((l.map (fun j => ((a, h j), g j))) : Qubo) z =
      bval z a * lsum l (fun j => g j * bval z (h j)) := by
  induction l with
  | nil => simp [energy, lsum]
  | cons b l ih =>
      rw [List.map_cons, energy_cons, ih, lsum_cons]
      ring

theorem energy_flatMap_lsum (K : ℕ) (f : ℕ → Qubo) (z : ℕ → Bool) :
    energy ((List.range K).flatMap f) z =
      lsum (List.range K) (fun i => energy (f i) z) := by
  rw [energy_flatMap]; rfl

theorem ilog2Aux_bracket (fuel : ℕ) : ∀ c, c ≤ fuel → 1 ≤ c →
    2 ^ ilog2Aux fuel c ≤ c ∧ c < 2 ^ (ilog2Aux fuel c + 1) := by
  induction fuel with
  | zero => intro c h1 h2; omega
  | succ fuel ih =>
      intro c hle h1
      by_cases h : c < 2
      · have hval : ilog2Aux (fuel + 1) c = 0 := by simp [ilog2Aux, h]
        rw [hval]
        simp
        omega
      · have hdlt : c / 2 < c := Nat.div_lt_self (by omega) (by norm_num)
        have ihc := ih (c / 2) (by omega) (by omega)
        have hval : ilog2Aux (fuel + 1) c = ilog2Aux fuel (c / 2) + 1 := by
          simp [ilog2Aux, h]
        rw [hval, pow_succ, pow_succ]
        rw [pow_succ] at ihc
        omega

theorem ilog2_bracket (c : ℕ) (h : 1 ≤ c) :
    2 ^ ilog2 c ≤ c ∧ c < 2 ^ (ilog2 c + 1) :=
  ilog2Aux_bracket c c le_rfl h

theorem energy_map_keys_id (l : List ℕ) (a : ℕ) (g : ℕ → ℤ) (z : ℕ → Bool) :
    energy ((l.map (fun j => ((a, j), g j))) : Qubo) z =
      bval z a * lsum l (fun j => g j * bval z j) :=
  energy_map_keys l a (fun j => j) g z

theorem cntTrue_eq_lsum (n : ℕ) (z : ℕ → Bool) :
    cntTrue n z = lsum (List.range n) (fun i => bval z i) := by
  rw [cntTrue, wsum_eq_lsum]
  exact lsum_congr (fun i _ => one_mul _)

/-- Energy of the size-constraint block: `alpha * (t^2 - 2*k*t)` where
`t` is the number of selected variables in the group. -/
theorem energy_sizeConstraintBlock (n k : ℕ) (alpha : ℤ) (z : ℕ → Bool) :
    energy (sizeConstraintBlock n k alpha) z =
      alpha * (cntTrue n z ^ 2 - 2 * (k : ℤ) * cntTrue n z) := by
  unfold sizeConstraintBlock
  rw [energy_flatMap_lsum]
  have hrow : ∀ i ∈ List.range n,
      energy (((i, i), alpha * (1 - 2 * (k : ℤ))) ::
          (List.range' (i + 1) (n - (i + 1))).map (fun j => ((i, j), 2 * alpha))) z =
        alpha * (1 - 2 * (k : ℤ)) * bval z i +
          2 * alpha * (bval z i *
            lsum (List.range' (i + 1) (n - (i + 1))) (fun j => bval z j)) := by
    intro i _
    rw [energy_cons, energy_map_keys_id, mul_assoc, bval_mul_self]
    rw [lsum_const_mul]
    ring
  rw [lsum_congr hrow, lsum_add]
  have h1 : lsum (List.range n) (fun i => alpha * (1 - 2 * (k : ℤ)) * bval z i) =
      alpha * (1 - 2 * (k : ℤ)) * cntTrue n z := by
    rw [lsum_const_mul, cntTrue_eq_lsum]
  have h2 : lsum (List.range n) (fun i =>
      2 * alpha * (bval z i *
        lsum (List.range' (i + 1) (n - (i + 1))) (fun j => bval z j))) =
      2 * alpha * triSum (fun _ => 1) n z := by
    rw [lsum_const_mul]
    have htri := tri_lsum (fun _ => 1) z n
    simp only [one_mul] at htri
    rw [htri]
  rw [h1, h2]
  have htwo := two_triSum_one n z
  linear_combination alpha * htwo

theorem edgeSum_nil (z : ℕ → Bool) : edgeSum [] z = 0 := rfl

theorem edgeSum_cons (e : ℕ × ℕ) (es : List (ℕ × ℕ)) (z : ℕ → Bool) :
    edgeSum (e :: es) z = bval z e.1 * bval z e.2 + edgeSum es z := by
  simp [edgeSum]

theorem edgeSum_append (l₁ l₂ : List (ℕ × ℕ)) (z : ℕ → Bool) :
    edgeSum (l₁ ++ l₂) z = edgeSum l₁ z + edgeSum l₂ z := by
  simp [edgeSum]

theorem edgeSum_eq_countP (edges : List (ℕ × ℕ)) (z : ℕ → Bool) :
    edgeSum edges z = (edges.countP (fun e => z e.1 && z e.2) : ℤ) := by
  induction edges with
  | nil => simp [edgeSum]
  | cons e es ih =>
      rw [edgeSum_cons, ih, List.countP_cons]
      by_cases h1 : z e.1 = true <;> by_cases h2 : z e.2 = true <;>
        simp [bval, h1, h2] <;> omega

/-- Energy effect of the per-edge `qadd` fold used by `build_clique_k`
and `build_n_queen`: each edge contributes `c` times the product of its
endpoint bits (the index swap does not change the product). -/
theorem energy_edge_fold (edges : List (ℕ × ℕ)) (c : ℤ) (q₀ : Qubo) (z : ℕ → Bool) :
    energy (edges.foldl (fun q e =>
        if e.1 > e.2 then qadd q (e.2, e.1) c else qadd q (e.1, e.2) c) q₀) z =
      energy q₀ z + c * edgeSum edges z := by
  induction edges generalizing q₀ with
  | nil => simp [edgeSum]
  | cons e es ih =>
      rw [List.foldl_cons, ih, edgeSum_cons]
      by_cases h : e.1 > e.2
      · rw [if_pos h, energy_qadd]
        ring
      · rw [if_neg h, energy_qadd]
        ring

theorem energy_build_clique_k (n : ℕ) (edges : List (ℕ × ℕ)) (k : ℕ)
    (alpha beta : ℤ) (z : ℕ → Bool) :
    energy (build_clique_k n edges k alpha beta) z =
      alpha * (cntTrue n z ^ 2 - 2 * (k : ℤ) * cntTrue n z) - beta * edgeSum edges z := by
  unfold build_clique_k
  rw [energy_edge_fold, energy_sizeConstraintBlock]
  ring

theorem mem_pairList {p : ℕ × ℕ} : ∀ {n : ℕ}, p ∈ pairList n ↔ p.1 < p.2 ∧ p.2 < n := by
  intro n
  induction n with
  | zero => simp [pairList]
  | succ n ih =>
      simp only [pairList, List.mem_append, ih, List.mem_map, List.mem_range]
      constructor
      · rintro (⟨h1, h2⟩ | ⟨i, hi, rfl⟩)
        · exact ⟨h1, Nat.lt_succ_of_lt h2⟩
        · exact ⟨hi, Nat.lt_succ_self n⟩
      · rintro ⟨h1, h2⟩
        by_cases hn : p.2 < n
        · exact Or.inl ⟨h1, hn⟩
        · have h2n : p.2 = n := by omega
          refine Or.inr ⟨p.1, by omega, ?_⟩
          rw [← h2n]

theorem nodup_pairList : ∀ n : ℕ, (pairList n).Nodup := by
  intro n
  induction n with
  | zero => simp [pairList]
  | succ n ih =>
      refine List.Nodup.append ih ?_ ?_
      · exact (List.nodup_range n).map (fun a b h => by
          simpa using congrArg Prod.fst h)
      · intro p hp hp'
        rcases List.mem_map.mp hp' with ⟨i, _, rfl⟩
        have := mem_pairList.mp hp
        omega

theorem triSum_one_eq_pairList (n : ℕ) (z : ℕ → Bool) :
    triSum (fun _ => 1) n z = edgeSum (pairList n) z := by
  induction n with
  | zero => simp [triSum, pairList, edgeSum]
  | succ n ih =>
      rw [pairList, edgeSum_append, ← ih]
      have hblock : edgeSum ((List.range n).map (fun i => (i, n))) z =
          bval z n * cntTrue n z := by
        unfold edgeSum
        rw [List.map_map]
        have : ((fun e : ℕ × ℕ => bval z e.1 * bval z e.2) ∘ fun i => (i, n)) =
            fun i => bval z n * bval z i := by
          funext i
          simp [mul_comm]
        rw [this, cntTrue_eq_lsum]
        show lsum (List.range n) (fun i => bval z n * bval z i) =
          bval z n * lsum (List.range n) (fun i => bval z i)
        exact lsum_const_mul (List.range n) (bval z n) (bval z)
      rw [hblock]
      simp only [triSum, cntTrue]
      ring

theorem half_pairs : ∀ k : ℕ, ((k * (k - 1) / 2 : ℕ) : ℤ) * 2 = (k : ℤ) ^ 2 - (k : ℤ)
  | 0 => by norm_num
  | k + 1 => by
      obtain ⟨d, hd⟩ := Nat.even_mul_succ_self k
      have hdiv : (k + 1) * ((k + 1) - 1) / 2 = d := by
        have h : (k + 1) * ((k + 1) - 1) = d + d := by
          simpa [Nat.mul_comm] using hd
        rw [h]
        omega
      rw [hdiv]
      have hZ : (k : ℤ) * (k + 1) = d + d := by exact_mod_cast hd
      push_cast
      linear_combination -hZ

/-- If the selection is a clique, the selected edges are in bijection
with the selected pairs. -/
theorem edgeSum_of_clique {n : ℕ} {edges : List (ℕ × ℕ)} {z : ℕ → Bool}
    (hcanon : ∀ e ∈ edges, e.1 < e.2 ∧ e.2 < n) (hnodup : edges.Nodup)
    (hcl : IsCliqueSel n edges z) :
    edgeSum edges z = edgeSum (pairList n) z := by
  rw [edgeSum_eq_countP, edgeSum_eq_countP]
  have hperm : List.Perm (edges.filter (fun e => z e.1 && z e.2))
      ((pairList n).filter (fun e => z e.1 && z e.2)) := by
    apply List.perm_of_nodup_nodup_toFinset_eq
      (hnodup.filter _) ((nodup_pairList n).filter _)
    ext q
    simp only [List.mem_toFinset, List.mem_filter, mem_pairList]
    constructor
    · rintro ⟨hq, hsel⟩
      exact ⟨hcanon q hq, hsel⟩
    · rintro ⟨⟨h1, h2⟩, hsel⟩
      have hsel' := hsel
      simp only [Bool.and_eq_true] at hsel'
      have := hcl q.2 h2 q.1 h1 hsel'.1 hsel'.2
      exact ⟨this, hsel⟩
  rw [List.countP_eq_length_filter, List.countP_eq_length_filter, hperm.length_eq]

/-- If the selection is not a clique, strictly fewer edges than selected
pairs are selected. -/
theorem edgeSum_lt_of_not_clique {n : ℕ} {edges : List (ℕ × ℕ)} {z : ℕ → Bool}
    (hcanon : ∀ e ∈ edges, e.1 < e.2 ∧ e.2 < n) (hnodup : edges.Nodup)
    (hncl : ¬IsCliqueSel n edges z) :
    edgeSum edges z + 1 ≤ edgeSum (pairList n) z := by
  unfold IsCliqueSel at hncl
  push_neg at hncl
  obtain ⟨b, hbn, a, hab, hza, hzb, hnm⟩ := hncl
  have hmem : (a, b) ∈ (pairList n).filter (fun e => z e.1 && z e.2) :=
    List.mem_filter.mpr ⟨mem_pairList.mpr ⟨hab, hbn⟩, by simp [hza, hzb]⟩
  have hsub : edges.filter (fun e => z e.1 && z e.2) ⊆
      ((pairList n).filter (fun e => z e.1 && z e.2)).erase (a, b) := by
    intro q hq
    rcases List.mem_filter.mp hq with ⟨hqe, hqp⟩
    have hne : q ≠ (a, b) := by
      rintro rfl
      exact hnm hqe
    have hq' : q ∈ (pairList n).filter (fun e => z e.1 && z e.2) :=
      List.mem_filter.mpr ⟨mem_pairList.mpr (hcanon q hqe), hqp⟩
    exact (List.mem_erase_of_ne hne).mpr hq'
  have hsp := (hnodup.filter (fun e => z e.1 && z e.2)).subperm hsub
  have hlen := hsp.length_le
  have herase := List.length_erase_of_mem hmem
  have hpos : 0 < ((pairList n).filter (fun e => z e.1 && z e.2)).length :=
    List.length_pos_of_mem hmem
  rw [edgeSum_eq_countP, edgeSum_eq_countP,
    List.countP_eq_length_filter, List.countP_eq_length_filter]
  omega

theorem lsum_zero (l : List ℕ) : lsum l (fun _ => 0) = 0 := by
  induction l with
  | nil => rfl
  | cons a l ih => rw [lsum_cons, ih]; ring

theorem lsum_le_of_mem {l : List ℕ} {f : ℕ → ℤ} {i₀ : ℕ}
    (hpos : ∀ i ∈ l, 0 ≤ f i) (hmem : i₀ ∈ l) : f i₀ ≤ lsum l f := by
  have hmem' : f i₀ ∈ l.map f := List.mem_map.mpr ⟨i₀, hmem, rfl⟩
  have hall : ∀ x ∈ l.map f, 0 ≤ x := by
    intro x hx
    rcases List.mem_map.mp hx with ⟨i, hi, rfl⟩
    exact hpos i hi
  exact List.single_le_sum hall _ hmem'

theorem bval_precomp (z : ℕ → Bool) (f : ℕ → ℕ) (i : ℕ) :
    bval (fun c => z (f c)) i = bval z (f i) := rfl

theorem energy_map_pair_keys (l : List ℕ) (h₁ h₂ : ℕ → ℕ) (g : ℕ → ℤ) (z : ℕ → Bool) :
    energy ((l.map (fun j => ((h₁ j, h₂ j), g j))) : Qubo) z =
      lsum l (fun j => g j * bval z (h₁ j) * bval z (h₂ j)) := by
  induction l with
  | nil => simp [energy, lsum]
  | cons b l ih => rw [List.map_cons, energy_cons, ih, lsum_cons]

theorem mem_neighborsAbove {edges : List (ℕ × ℕ)} {idx nb : ℕ} :
    nb ∈ neighborsAbove edges idx ↔
      ∃ e ∈ edges, (e.1 = idx ∧ nb = e.2 ∧ idx < e.2) ∨
        (e.2 = idx ∧ nb = e.1 ∧ idx < e.1) := by
  unfold neighborsAbove
  simp only [List.mem_filterMap]
  constructor
  · rintro ⟨e, he, hsome⟩
    by_cases h1 : e.1 = idx ∧ idx < e.2
    · rw [if_pos h1] at hsome
      exact ⟨e, he, Or.inl ⟨h1.1, (Option.some.inj hsome).symm, h1.2⟩⟩
    · rw [if_neg h1] at hsome
      by_cases h2 : e.2 = idx ∧ idx < e.1
      · rw [if_pos h2] at hsome
        exact ⟨e, he, Or.inr ⟨h2.1, (Option.some.inj hsome).symm, h2.2⟩⟩
      · rw [if_neg h2] at hsome
        exact absurd hsome (by simp)
  · rintro ⟨e, he, (⟨h1, rfl, h3⟩ | ⟨h1, rfl, h3⟩)⟩
    · exact ⟨e, he, by rw [if_pos ⟨h1, h3⟩]⟩
    · refine ⟨e, he, ?_⟩
      have hne : ¬(e.1 = idx ∧ idx < e.2) := by
        rintro ⟨ha, hb⟩
        omega
      rw [if_neg hne, if_pos ⟨h1, h3⟩]

/-- Energy of the one-hot color block of one node. -/
theorem energy_coloring_onehot (idx K : ℕ) (alpha : ℤ) (z : ℕ → Bool) :
    energy ((List.range K).flatMap (fun color =>
      ((composite_index idx K color, composite_index idx K color), -alpha) ::
        (List.range' (color + 1) (K - (color + 1))).map (fun c =>
          ((composite_index idx K color, composite_index idx K c), 2 * alpha)))) z =
      alpha * (cntTrue K (fun c => z (composite_index idx K c)) ^ 2 -
        2 * cntTrue K (fun c => z (composite_index idx K c))) := by
  rw [energy_flatMap_lsum]
  have hrow : ∀ color ∈ List.range K,
      energy (((composite_index idx K color, composite_index idx K color), -alpha) ::
          (List.range' (color + 1) (K - (color + 1))).map (fun c =>
            ((composite_index idx K color, composite_index idx K c), 2 * alpha))) z =
        -alpha * bval z (composite_index idx K color) +
          2 * alpha * (bval z (composite_index idx K color) *
            lsum (List.range' (color + 1) (K - (color + 1)))
              (fun c => bval z (composite_index idx K c))) := by
    intro color _
    rw [energy_cons,
      energy_map_keys (List.range' (color + 1) (K - (color + 1)))
        (composite_index idx K color) (composite_index idx K) (fun _ => 2 * alpha) z,
      mul_assoc, bval_mul_self, lsum_const_mul]
    ring
  rw [lsum_congr hrow, lsum_add]
  have h1 : lsum (List.range K) (fun color => -alpha * bval z (composite_index idx K color)) =
      -alpha * cntTrue K (fun c => z (composite_index idx K c)) := by
    rw [lsum_const_mul, cntTrue_eq_lsum]
    simp only [bval_precomp]
  have h2 : lsum (List.range K) (fun color =>
      2 * alpha * (bval z (composite_index idx K color) *
        lsum (List.range' (color + 1) (K - (color + 1)))
          (fun c => bval z (composite_index idx K c)))) =
      2 * alpha * triSum (fun _ => 1) K (fun c => z (composite_index idx K c)) := by
    rw [lsum_const_mul]
    have htri := tri_lsum (fun _ => 1) (fun c => z (composite_index idx K c)) K
    simp only [one_mul, bval_precomp] at htri
    rw [htri]
  rw [h1, h2]
  have htwo := two_triSum_one K (fun c => z (composite_index idx K c))
  linear_combination alpha * htwo

/-- Energy of the adjacency block of one node, as a nested sum. -/
theorem energy_coloring_adj (idx K : ℕ) (beta : ℤ) (edges : List (ℕ × ℕ)) (z : ℕ → Bool) :
    energy (((neighborsAbove edges idx).flatMap (fun neighbor_idx =>
      (List.range K).map (fun color =>
        ((composite_index idx K color, composite_index neighbor_idx K color), beta)))) : Qubo) z =
      lsum (neighborsAbove edges idx) (fun nb =>
        lsum (List.range K) (fun color =>
          beta * bval z (composite_index idx K color) *
            bval z (composite_index nb K color))) := by
  rw [energy_flatMap]
  show lsum (neighborsAbove edges idx) _ = _
  apply lsum_congr
  intro nb _
  exact energy_map_pair_keys (List.range K) (composite_index idx K)
    (composite_index nb K) (fun _ => beta) z

/-- Full decomposition of the coloring energy: per-node one-hot energy
plus per-node adjacency energy. -/
theorem energy_build_graph_coloring (n K : ℕ) (edges : List (ℕ × ℕ))
    (alpha beta : ℤ) (z : ℕ → Bool) :
    energy (build_graph_coloring n edges K alpha beta) z =
      lsum (List.range n) (fun idx =>
        alpha * (cntTrue K (fun c => z (composite_index idx K c)) ^ 2 -
          2 * cntTrue K (fun c => z (composite_index idx K c))) +
        lsum (neighborsAbove edges idx) (fun nb =>
          lsum (List.range K) (fun color =>
            beta * bval z (composite_index idx K color) *
              bval z (composite_index nb K color)))) := by
  unfold build_graph_coloring
  rw [energy_flatMap_lsum]
  apply lsum_congr
  intro idx _
  rw [energy_append, energy_coloring_onehot, energy_coloring_adj]

/-- Energy of the item loop of the auxiliary-bit knapsack compiler. -/
theorem energy_knapsackItemsBlock (weights profits : List ℤ) (n m : ℕ)
    (r alpha beta : ℤ) (z : ℕ → Bool) :
    energy (knapsackItemsBlock weights profits n m r alpha beta) z =
      -beta * wsum (listVal profits) n z +
        alpha * wsum (fun i => listVal weights i ^ 2) n z +
        2 * alpha * triSum (listVal weights) n z -
        2 * alpha * wsum (fun k => 2 ^ k) m (fun k => z (n + k)) *
          wsum (listVal weights) n z -
        2 * alpha * r * bval z (n + m) * wsum (listVal weights) n z := by
  have hY : wsum (fun k => (2 : ℤ) ^ k) m (fun k => z (n + k)) =
      lsum (List.range m) (fun k => 2 ^ k * bval z (n + k)) := by
    rw [wsum_eq_lsum]
    simp only [bval_precomp]
  unfold knapsackItemsBlock
  rw [energy_flatMap_lsum]
  have hrow : ∀ i ∈ List.range n,
      energy ((((i, i), -beta * listVal profits i + alpha * listVal weights i ^ 2) ::
          (List.range' (i + 1) (n - (i + 1))).map (fun j =>
            ((i, j), 2 * alpha * listVal weights i * listVal weights j))) ++
        ((List.range m).map (fun k =>
            ((i, k + n), -alpha * listVal weights i * 2 ^ (k + 1))) ++
          [((i, n + m), -2 * alpha * listVal weights i * r)])) z =
        (-beta * listVal profits i) * bval z i +
          alpha * (listVal weights i ^ 2 * bval z i) +
          2 * alpha * (listVal weights i * bval z i *
            lsum (List.range' (i + 1) (n - (i + 1)))
              (fun j => listVal weights j * bval z j)) +
          (-2 * alpha * lsum (List.range m) (fun k => 2 ^ k * bval z (n + k))) *
            (listVal weights i * bval z i) +
          (-2 * alpha * r * bval z (n + m)) * (listVal weights i * bval z i) := by
    intro i _
    rw [energy_append, energy_cons, energy_map_keys_id, energy_append,
      energy_map_keys (List.range m) i (fun k => k + n)
        (fun k => -alpha * listVal weights i * 2 ^ (k + 1)) z,
      energy_singleton]
    have hpair : lsum (List.range' (i + 1) (n - (i + 1)))
        (fun j => 2 * alpha * listVal weights i * listVal weights j * bval z j) =
        (2 * alpha * listVal weights i) *
          lsum (List.range' (i + 1) (n - (i + 1)))
            (fun j => listVal weights j * bval z j) := by
      rw [← lsum_const_mul]
      apply lsum_congr
      intro j _
      ring
    have hcross : lsum (List.range m)
        (fun k => -alpha * listVal weights i * 2 ^ (k + 1) * bval z (k + n)) =
        (-2 * alpha * listVal weights i) *
          lsum (List.range m) (fun k => 2 ^ k * bval z (n + k)) := by
      rw [← lsum_const_mul]
      apply lsum_congr
      intro k _
      rw [Nat.add_comm k n]
      ring
    rw [hpair, hcross, mul_assoc (-beta * listVal profits i + alpha * listVal weights i ^ 2),
      bval_mul_self]
    ring
  rw [lsum_congr hrow]
  rw [lsum_add, lsum_add, lsum_add, lsum_add]
  rw [lsum_const_mul (List.range n) alpha, lsum_const_mul (List.range n) (2 * alpha),
    lsum_const_mul (List.range n)
      (-2 * alpha * lsum (List.range m) (fun k => 2 ^ k * bval z (n + k))),
    lsum_const_mul (List.range n) (-2 * alpha * r * bval z (n + m))]
  have hA : lsum (List.range n) (fun i => -beta * listVal profits i * bval z i) =
      -beta * wsum (listVal profits) n z := by
    rw [wsum_eq_lsum, ← lsum_const_mul]
    apply lsum_congr
    intro i _
    ring
  have hB : lsum (List.range n) (fun i => listVal weights i ^ 2 * bval z i) =
      wsum (fun i => listVal weights i ^ 2) n z := (wsum_eq_lsum _ n z).symm
  have hC : lsum (List.range n) (fun i => listVal weights i * bval z i *
      lsum (List.range' (i + 1) (n - (i + 1))) (fun j => listVal weights j * bval z j)) =
      triSum (listVal weights) n z := tri_lsum (listVal weights) z n
  have hD : lsum (List.range n) (fun i => listVal weights i * bval z i) =
      wsum (listVal weights) n z := (wsum_eq_lsum _ n z).symm
  rw [hA, hB, hC, hD, hY]
  ring

/-- Energy of the auxiliary-bit loop of the auxiliary-bit knapsack
compiler. -/
theorem energy_knapsackAuxBlock (n m : ℕ) (r alpha : ℤ) (z : ℕ → Bool) :
    energy (knapsackAuxBlock n m r alpha) z =
      alpha * wsum (fun k => ((2 : ℤ) ^ k) ^ 2) m (fun k => z (n + k)) +
        2 * alpha * triSum (fun k => 2 ^ k) m (fun k => z (n + k)) +
        2 * alpha * r * bval z (n + m) *
          wsum (fun k => 2 ^ k) m (fun k => z (n + k)) := by
  have hY : wsum (fun k => (2 : ℤ) ^ k) m (fun k => z (n + k)) =
      lsum (List.range m) (fun k => 2 ^ k * bval z (n + k)) := by
    rw [wsum_eq_lsum]
    simp only [bval_precomp]
  unfold knapsackAuxBlock
  rw [energy_flatMap_lsum]
  have hrow : ∀ i ∈ List.range m,
      energy ((((i + n, i + n), alpha * 2 ^ (2 * i)) ::
          (List.range' (i + 1) (m - (i + 1))).map (fun j =>
            ((i + n, j + n), alpha * 2 ^ (i + j + 1)))) ++
        [((i + n, n + m), alpha * 2 ^ (i + 1) * r)]) z =
        alpha * (((2 : ℤ) ^ i) ^ 2 * bval z (n + i)) +
          2 * alpha * ((2 : ℤ) ^ i * bval z (n + i) *
            lsum (List.range' (i + 1) (m - (i + 1)))
              (fun j => (2 : ℤ) ^ j * bval z (n + j))) +
          (2 * alpha * r * bval z (n + m)) * ((2 : ℤ) ^ i * bval z (n + i)) := by
    intro i _
    rw [energy_append, energy_cons,
      energy_map_keys (List.range' (i + 1) (m - (i + 1))) (i + n) (fun j => j + n)
        (fun j => alpha * 2 ^ (i + j + 1)) z,
      energy_singleton]
    have hpair : lsum (List.range' (i + 1) (m - (i + 1)))
        (fun j => alpha * 2 ^ (i + j + 1) * bval z (j + n)) =
        (2 * alpha * 2 ^ i) *
          lsum (List.range' (i + 1) (m - (i + 1)))
            (fun j => (2 : ℤ) ^ j * bval z (n + j)) := by
      rw [← lsum_const_mul]
      apply lsum_congr
      intro j _
      rw [Nat.add_comm j n]
      ring
    rw [hpair, mul_assoc (alpha * 2 ^ (2 * i)), bval_mul_self,
      Nat.add_comm i n]
    ring
  rw [lsum_congr hrow]
  rw [lsum_add, lsum_add]
  rw [lsum_const_mul (List.range m) alpha, lsum_const_mul (List.range m) (2 * alpha),
    lsum_const_mul (List.range m) (2 * alpha * r * bval z (n + m))]
  have hA : lsum (List.range m) (fun i => ((2 : ℤ) ^ i) ^ 2 * bval z (n + i)) =
      wsum (fun k => ((2 : ℤ) ^ k) ^ 2) m (fun k => z (n + k)) := by
    rw [wsum_eq_lsum]
    simp only [bval_precomp]
  have hB : lsum (List.range m) (fun i => (2 : ℤ) ^ i * bval z (n + i) *
      lsum (List.range' (i + 1) (m - (i + 1))) (fun j => (2 : ℤ) ^ j * bval z (n + j))) =
      triSum (fun k => 2 ^ k) m (fun k => z (n + k)) := by
    have htri := tri_lsum (fun k => (2 : ℤ) ^ k) (fun k => z (n + k)) m
    simp only [bval_precomp] at htri
    exact htri
  rw [hA, hB, hY]

/-- Energy of the auxiliary-bit knapsack map at an arbitrary runtime bit
count `m`: the objective term plus `alpha` times the squared difference
between the selected weight and the value represented by the auxiliary
bits. -/
theorem energy_build_knapsack_with_aux_m (weights profits : List ℤ)
    (capacity m : ℕ) (alpha beta : ℤ) (z : ℕ → Bool) :
    energy (build_knapsack_with_aux_m weights profits capacity m alpha beta) z =
      -beta * wsum (listVal profits) weights.length z +
        alpha * (wsum (listVal weights) weights.length z -
          auxValue weights.length m ((capacity : ℤ) - (2 ^ m - 1)) z) ^ 2 := by
  simp only [build_knapsack_with_aux_m]
  rw [energy_append, energy_append, energy_knapsackItemsBlock,
    energy_knapsackAuxBlock, energy_singleton]
  unfold auxValue
  have h1 := sq_wsum (listVal weights) weights.length z
  have h2 := sq_wsum (fun k => (2 : ℤ) ^ k) m
    (fun k => z (weights.length + k))
  linear_combination (-alpha) * h1 + (-alpha) * h2

/-- Energy of the auxiliary-bit knapsack map with the exact floor-log2
bit count. -/
theorem energy_build_knapsack_with_aux (weights profits : List ℤ) (capacity : ℕ)
    (alpha beta : ℤ) (z : ℕ → Bool) :
    energy (build_knapsack_with_aux weights profits capacity alpha beta) z =
      -beta * wsum (listVal profits) weights.length z +
        alpha * (wsum (listVal weights) weights.length z -
          auxValue weights.length (ilog2 capacity) (remainderWeight capacity) z) ^ 2 := by
  unfold build_knapsack_with_aux
  rw [energy_build_knapsack_with_aux_m]
  rfl

theorem listVal_mem : ∀ (l : List ℤ) (i : ℕ), i < l.length → listVal l i ∈ l := by
  intro l
  induction l with
  | nil => intro i h; simp at h
  | cons a tl ih =>
      intro i h
      cases i with
      | zero => simp [listVal]
      | succ i =>
          have : listVal (a :: tl) (i + 1) = listVal tl i := by simp [listVal]
          rw [this]
          exact List.mem_cons_of_mem a (ih i (by simpa using h))

theorem wsum_pow2_le (m : ℕ) (b : ℕ → Bool) :
    wsum (fun k => (2 : ℤ) ^ k) m b ≤ 2 ^ m - 1 := by
  induction m with
  | zero => simp [wsum]
  | succ m ih =>
      have hb := bval_le_one b m
      have hpos : (0 : ℤ) ≤ 2 ^ m := by positivity
      have hmul : (2 : ℤ) ^ m * bval b m ≤ 2 ^ m :=
        mul_le_of_le_one_right hpos hb
      simp only [wsum]
      rw [pow_succ]
      omega

theorem wsum_pow2_nonneg (m : ℕ) (b : ℕ → Bool) :
    0 ≤ wsum (fun k => (2 : ℤ) ^ k) m b :=
  wsum_nonneg (fun i _ => by positivity)

/-- Every value in `[0, 2^m)` is representable by the `m` binary-weighted
bits, with all bits from position `m` on unset. -/
theorem exists_bits (m : ℕ) : ∀ t : ℕ, t < 2 ^ m →
    ∃ b : ℕ → Bool, wsum (fun k => (2 : ℤ) ^ k) m b = t ∧ ∀ j, m ≤ j → b j = false := by
  induction m with
  | zero =>
      intro t ht
      have : t = 0 := by simpa using ht
      subst this
      exact ⟨fun _ => false, by simp [wsum], fun j _ => rfl⟩
  | succ m ih =>
      intro t ht
      by_cases hlt : t < 2 ^ m
      · obtain ⟨b, hb, hmask⟩ := ih t hlt
        refine ⟨b, ?_, fun j hj => hmask j (by omega)⟩
        simp only [wsum]
        rw [hb, bval_false (hmask m le_rfl)]
        ring
      · have h1 : 2 ^ m ≤ t := by omega
        have hpow : 2 ^ (m + 1) = 2 * 2 ^ m := by ring
        have h2 : t - 2 ^ m < 2 ^ m := by omega
        obtain ⟨b, hb, hmask⟩ := ih (t - 2 ^ m) h2
        refine ⟨fun k => if k = m then true else b k, ?_, ?_⟩
        · simp only [wsum]
          have hw : wsum (fun k => (2 : ℤ) ^ k) m (fun k => if k = m then true else b k) =
              wsum (fun k => (2 : ℤ) ^ k) m b := by
            apply wsum_congr_assign
            intro i hi
            rw [if_neg (by omega)]
          rw [hw, hb, bval_true (by simp)]
          have hcast : ((t - 2 ^ m : ℕ) : ℤ) = (t : ℤ) - 2 ^ m := by
            rw [Nat.cast_sub h1]
            push_cast
            ring
          rw [hcast]
          ring
        · intro j hj
          show (if j = m then true else b j) = false
          rw [if_neg (by omega)]
          exact hmask j (by omega)

theorem auxValue_combine (n m : ℕ) (r : ℤ) (x b : ℕ → Bool) :
    auxValue n m r (combineAssign n x b) = auxRawValue m r b := by
  unfold auxValue auxRawValue
  have h1 : ∀ k, combineAssign n x b (n + k) = b k := by
    intro k
    show (if n + k < n then x (n + k) else b (n + k - n)) = b k
    rw [if_neg (by omega)]
    congr 1
    omega
  congr 1
  · exact wsum_congr_assign (fun k _ => h1 k)
  · unfold bval
    rw [h1 m]

theorem auxRawValue_bounds (capacity : ℕ) (hcap : 1 ≤ capacity) (b : ℕ → Bool) :
    0 ≤ auxRawValue (ilog2 capacity) (remainderWeight capacity) b ∧
      auxRawValue (ilog2 capacity) (remainderWeight capacity) b ≤ (capacity : ℤ) := by
  obtain ⟨hlo, _⟩ := ilog2_bracket capacity hcap
  have hloZ : ((2 : ℤ) ^ ilog2 capacity) ≤ (capacity : ℤ) := by exact_mod_cast hlo
  have hr : (1 : ℤ) ≤ remainderWeight capacity := by
    unfold remainderWeight
    omega
  have hwle := wsum_pow2_le (ilog2 capacity) b
  have hwnn := wsum_pow2_nonneg (ilog2 capacity) b
  have hble := bval_le_one b (ilog2 capacity)
  have hbnn := bval_nonneg b (ilog2 capacity)
  have hmul : remainderWeight capacity * bval b (ilog2 capacity) ≤
      remainderWeight capacity :=
    mul_le_of_le_one_right (by omega) hble
  have hmnn : 0 ≤ remainderWeight capacity * bval b (ilog2 capacity) :=
    mul_nonneg (by omega) hbnn
  unfold auxRawValue
  constructor
  · omega
  · unfold remainderWeight at hmul ⊢
    omega

theorem auxRawValue_surj (capacity : ℕ) (hcap : 1 ≤ capacity) (t : ℕ)
    (ht : t ≤ capacity) :
    ∃ b : ℕ → Bool,
      auxRawValue (ilog2 capacity) (remainderWeight capacity) b = (t : ℤ) := by
  obtain ⟨hlo, hhi⟩ := ilog2_bracket capacity hcap
  by_cases hsmall : t < 2 ^ ilog2 capacity
  · obtain ⟨b, hb, hmask⟩ := exists_bits (ilog2 capacity) t hsmall
    refine ⟨b, ?_⟩
    unfold auxRawValue
    rw [hb, bval_false (hmask _ le_rfl)]
    ring
  · have h1 : 2 ^ ilog2 capacity ≤ t := by omega
    have hpow : 2 ^ (ilog2 capacity + 1) = 2 * 2 ^ ilog2 capacity := by ring
    have hr2 : capacity + 1 - 2 ^ ilog2 capacity ≤ 2 ^ ilog2 capacity := by omega
    have hrz : remainderWeight capacity =
        ((capacity + 1 - 2 ^ ilog2 capacity : ℕ) : ℤ) := by
      unfold remainderWeight
      rw [Nat.cast_sub (by omega)]
      push_cast
      ring
    have htr : t - (capacity + 1 - 2 ^ ilog2 capacity) < 2 ^ ilog2 capacity := by omega
    have hge : capacity + 1 - 2 ^ ilog2 capacity ≤ t := by omega
    obtain ⟨b, hb, hmask⟩ :=
      exists_bits (ilog2 capacity) (t - (capacity + 1 - 2 ^ ilog2 capacity)) htr
    refine ⟨fun k => if k = ilog2 capacity then true else b k, ?_⟩
    unfold auxRawValue
    have hw : wsum (fun k => (2 : ℤ) ^ k) (ilog2 capacity)
        (fun k => if k = ilog2 capacity then true else b k) =
        wsum (fun k => (2 : ℤ) ^ k) (ilog2 capacity) b := by
      apply wsum_congr_assign
      intro i hi
      rw [if_neg (by omega)]
    rw [hw, hb, bval_true (by simp), hrz]
    rw [Nat.cast_sub hge]
    ring

theorem wsum_combine (w : ℕ → ℤ) (n : ℕ) (x b : ℕ → Bool) :
    wsum w n (combineAssign n x b) = wsum w n x := by
  apply wsum_congr_assign
  intro i hi
  unfold combineAssign
  rw [if_pos hi]

/-- Zero-penalty criterion for the auxiliary-bit knapsack map built with
the exact floor-log2 bit count — the value the slack design intends for
`m` and the one the source's `int(log2(capacity))` yields whenever the
float pipeline is exact: for equal-length weight/profit lists with
positive weights and `capacity ≥ 1`, an item selection admits an
auxiliary-bit setting whose total energy is exactly the objective value
`-beta * profit` (penalty component zero) if and only if its weight
respects the capacity, and every infeasible selection has strictly
larger energy under every auxiliary setting (for `alpha > 0`).
`knapsack_aux_float_log2_failure` exhibits a capacity where the float
computation of `m` departs from the floor and this criterion fails on
the emitted map. -/
theorem knapsack_aux_zero_penalty_iff (weights profits : List ℤ) (capacity : ℕ)
    (alpha beta : ℤ) (x : ℕ → Bool)
    (hcap : 1 ≤ capacity) (hw : ∀ w ∈ weights, 0 < w)
    (hlen : weights.length = profits.length) (halpha : 0 < alpha) :
    ((∃ b : ℕ → Bool,
        energy (build_knapsack_with_aux weights profits capacity alpha beta)
          (combineAssign weights.length x b) =
        -beta * wsum (listVal profits) weights.length x) ↔
      wsum (listVal weights) weights.length x ≤ (capacity : ℤ))
    ∧ ((capacity : ℤ) < wsum (listVal weights) weights.length x →
        ∀ b : ℕ → Bool,
          -beta * wsum (listVal profits) weights.length x <
            energy (build_knapsack_with_aux weights profits capacity alpha beta)
              (combineAssign weights.length x b)) := by
  have hE : ∀ b : ℕ → Bool,
      energy (build_knapsack_with_aux weights profits capacity alpha beta)
        (combineAssign weights.length x b) =
      -beta * wsum (listVal profits) weights.length x +
        alpha * (wsum (listVal weights) weights.length x -
          auxRawValue (ilog2 capacity) (remainderWeight capacity) b) ^ 2 := by
    intro b
    rw [energy_build_knapsack_with_aux, auxValue_combine, wsum_combine, wsum_combine]
  have hWnn : 0 ≤ wsum (listVal weights) weights.length x :=
    wsum_nonneg (fun i hi => (hw _ (listVal_mem weights i hi)).le)
  constructor
  · constructor
    · rintro ⟨b, hb⟩
      rw [hE b] at hb
      have hz : alpha * (wsum (listVal weights) weights.length x -
          auxRawValue (ilog2 capacity) (remainderWeight capacity) b) ^ 2 = 0 := by
        linarith
      have hsq : (wsum (listVal weights) weights.length x -
          auxRawValue (ilog2 capacity) (remainderWeight capacity) b) ^ 2 = 0 := by
        rcases mul_eq_zero.mp hz with h | h
        · exact absurd h (by omega)
        · exact h
      have heq : wsum (listVal weights) weights.length x =
          auxRawValue (ilog2 capacity) (remainderWeight capacity) b := by
        have := pow_eq_zero_iff (n := 2) (by norm_num) |>.mp hsq
        linarith
      rw [heq]
      exact (auxRawValue_bounds capacity hcap b).2
    · intro hle
      obtain ⟨b, hb⟩ := auxRawValue_surj capacity hcap
        (wsum (listVal weights) weights.length x).toNat
        (by omega)
      refine ⟨b, ?_⟩
      rw [hE b, hb, Int.toNat_of_nonneg hWnn]
      ring
  · intro hgt b
    rw [hE b]
    have hYle := (auxRawValue_bounds capacity hcap b).2
    have hpos : 0 < wsum (listVal weights) weights.length x -
        auxRawValue (ilog2 capacity) (remainderWeight capacity) b := by linarith
    have := mul_pos halpha (pow_pos hpos 2)
    linarith

/-- C1 (code bug): the zero-penalty guarantee fails on the map the source
emits at capacity `2^60 - 5`.  The source computes
`m = int(log2(capacity))` through a C double: the int-to-double
conversion rounds `2^60 - 5` to exactly `2^60` (first conjunct, via
`pyFloatOfNat`), and `log2` of an exact power of two is exactly `60.0`
under any faithfully rounded libm, so the runtime uses `m = 60` even
though the exact floor is `59` (second conjunct).  With `m = 60` the
remainder weight is `-4` and the sixty plain slack bits alone represent
every value up to `2^60 - 1 > capacity`; consequently the single-item
selection of weight `2^60 - 4 = capacity + 1` — infeasible (third
conjunct) — admits an auxiliary setting of zero penalty: the emitted
map's energy equals the pure objective `-beta * profit` (fourth
conjunct), while the guarantee demands strictly positive penalty for
every infeasible selection under every auxiliary setting. -/
theorem knapsack_aux_float_log2_failure :
    pyFloatOfNat (2 ^ 60 - 5) = 2 ^ 60 ∧
      ilog2 (2 ^ 60 - 5) = 59 ∧
      ((2 ^ 60 - 5 : ℕ) : ℤ) < wsum (listVal [2 ^ 60 - 4]) 1 (fun _ => true) ∧
      ∃ b : ℕ → Bool,
        energy (build_knapsack_with_aux_m [2 ^ 60 - 4] [1] (2 ^ 60 - 5) 60 1 1)
          (combineAssign 1 (fun _ => true) b) =
        -1 * wsum (listVal [1]) 1 (fun _ => true) := by
  refine ⟨by decide, by decide, by decide, ?_⟩
  obtain ⟨b, hb, hmask⟩ := exists_bits 60 (2 ^ 60 - 4)
    (Nat.sub_lt (by norm_num) (by norm_num))
  refine ⟨b, ?_⟩
  rw [energy_build_knapsack_with_aux_m]
  simp only [List.length_singleton]
  rw [auxValue_combine, wsum_combine, wsum_combine]
  unfold auxRawValue
  rw [hb, bval_false (hmask 60 le_rfl)]
  have hW : wsum (listVal [(2 : ℤ) ^ 60 - 4]) 1 (fun _ => true) =
      ((2 ^ 60 - 4 : ℕ) : ℤ) := by decide
  rw [hW]
  ring

/-- C4: on a selection of exactly `k` nodes, the clique map's energy plus
the offset `alpha*k^2 + beta*k*(k-1)/2` is `0` exactly on cliques, and a
positive integer multiple of `beta` on non-cliques. -/
theorem clique_energy_characterization (n k : ℕ) (edges : List (ℕ × ℕ))
    (alpha beta : ℤ) (z : ℕ → Bool)
    (hcanon : ∀ e ∈ edges, e.1 < e.2 ∧ e.2 < n) (hnodup : edges.Nodup)
    (hcnt : cntTrue n z = (k : ℤ)) :
    (IsCliqueSel n edges z →
      energy (build_clique_k n edges k alpha beta) z + cliqueOffset k alpha beta = 0)
    ∧ (¬IsCliqueSel n edges z →
      ∃ d : ℤ, 1 ≤ d ∧
        energy (build_clique_k n edges k alpha beta) z + cliqueOffset k alpha beta =
          d * beta) := by
  have hE := energy_build_clique_k n edges k alpha beta z
  have hhalf := half_pairs k
  have htwo := two_triSum_one n z
  have hP2 := triSum_one_eq_pairList n z
  have h2P : 2 * edgeSum (pairList n) z = (k : ℤ) ^ 2 - k := by
    rw [← hP2, htwo, hcnt]
  have hHP : ((k * (k - 1) / 2 : ℕ) : ℤ) = edgeSum (pairList n) z := by omega
  constructor
  · intro hcl
    have hEq := edgeSum_of_clique hcanon hnodup hcl
    rw [hE, hcnt, hEq]
    unfold cliqueOffset
    rw [hHP]
    ring
  · intro hncl
    have hlt := edgeSum_lt_of_not_clique hcanon hnodup hncl
    refine ⟨edgeSum (pairList n) z - edgeSum edges z, by omega, ?_⟩
    rw [hE, hcnt]
    unfold cliqueOffset
    rw [hHP]
    ring

/-- C6 counterexample: with one group member, `k = 1` and `alpha = 1`,
the all-true assignment has exactly `t = k` selected variables yet the
emitted sub-expression evaluates to `-1`, not `0` — its minimum is
`-alpha*k^2`, not `0`. -/
theorem size_constraint_counterexample :
    cntTrue 1 (fun _ => true) = 1 ∧
      energy (sizeConstraintBlock 1 1 1) (fun _ => true) = -1 := by
  decide

/-- C6 amended: the emitted completeness sub-expression plus the constant
`alpha*k^2` (the expansion's constant term, emitted separately as the
offset) is nonnegative, vanishes exactly when `t = k`, and exceeds its
minimum by at least `alpha` for every `t ≠ k` (for `alpha > 0`). -/
theorem size_constraint_amended (g k : ℕ) (alpha : ℤ) (z : ℕ → Bool)
    (ha : 0 < alpha) :
    0 ≤ energy (sizeConstraintBlock g k alpha) z + alpha * (k : ℤ) ^ 2
    ∧ (energy (sizeConstraintBlock g k alpha) z + alpha * (k : ℤ) ^ 2 = 0 ↔
        cntTrue g z = (k : ℤ))
    ∧ (cntTrue g z ≠ (k : ℤ) →
        alpha ≤ energy (sizeConstraintBlock g k alpha) z + alpha * (k : ℤ) ^ 2) := by
  have hE := energy_sizeConstraintBlock g k alpha z
  have hsq : energy (sizeConstraintBlock g k alpha) z + alpha * (k : ℤ) ^ 2 =
      alpha * (cntTrue g z - k) ^ 2 := by rw [hE]; ring
  rw [hsq]
  refine ⟨mul_nonneg ha.le (sq_nonneg _), ⟨?_, ?_⟩, ?_⟩
  · intro h0
    rcases mul_eq_zero.mp h0 with h | h
    · omega
    · have := pow_eq_zero_iff (n := 2) (by norm_num) |>.mp h
      omega
  · intro h
    rw [h]
    ring
  · intro hne
    have hne' : cntTrue g z - (k : ℤ) ≠ 0 := by omega
    have habs := Int.one_le_abs hne'
    have h1 : (1 : ℤ) ≤ (cntTrue g z - k) ^ 2 := by
      have hsq' := sq_abs (cntTrue g z - (k : ℤ))
      nlinarith [abs_nonneg (cntTrue g z - (k : ℤ))]
    nlinarith

theorem bval_prod_zero {z : ℕ → Bool} {i j : ℕ}
    (h : ¬(z i = true ∧ z j = true)) (beta : ℤ) :
    beta * bval z i * bval z j = 0 := by
  by_cases h1 : z i = true
  · have h2 : z j = false := by
      cases hz : z j
      · rfl
      · exact absurd ⟨h1, hz⟩ h
    rw [bval_false h2]
    ring
  · have h1' : z i = false := by
      cases hz : z i
      · rfl
      · exact absurd hz h1
    rw [bval_false h1']
    ring

/-- C5: for positive penalties, a valid proper coloring (exactly one
color per node, no monochromatic edge) evaluates to exactly
`-alpha * num_nodes`, and every assignment violating either rule
evaluates strictly higher. -/
theorem coloring_energy_characterization (n num_colors : ℕ)
    (edges : List (ℕ × ℕ)) (alpha beta : ℤ) (z : ℕ → Bool)
    (hedges : ∀ e ∈ edges, e.1 ≠ e.2 ∧ e.1 < n ∧ e.2 < n)
    (halpha : 0 < alpha) (hbeta : 0 < beta) :
    (OneColorEach n num_colors z → ConflictFree edges num_colors z →
      energy (build_graph_coloring n edges num_colors alpha beta) z =
        -alpha * (n : ℤ))
    ∧ (¬(OneColorEach n num_colors z ∧ ConflictFree edges num_colors z) →
      -alpha * (n : ℤ) <
        energy (build_graph_coloring n edges num_colors alpha beta) z) := by
  have hE := energy_build_graph_coloring n num_colors edges alpha beta z
  have hadj_nonneg : ∀ idx,
      0 ≤ lsum (neighborsAbove edges idx) (fun nb =>
        lsum (List.range num_colors) (fun color =>
          beta * bval z (composite_index idx num_colors color) *
            bval z (composite_index nb num_colors color))) := by
    intro idx
    apply lsum_nonneg
    intro nb _
    apply lsum_nonneg
    intro color _
    exact mul_nonneg (mul_nonneg hbeta.le (bval_nonneg _ _)) (bval_nonneg _ _)
  have hnode_lb : ∀ idx,
      -alpha ≤ alpha * (cntTrue num_colors (fun c => z (composite_index idx num_colors c)) ^ 2 -
        2 * cntTrue num_colors (fun c => z (composite_index idx num_colors c))) := by
    intro idx
    have h := mul_nonneg halpha.le
      (sq_nonneg (cntTrue num_colors (fun c => z (composite_index idx num_colors c)) - 1))
    nlinarith [h]
  constructor
  · intro h1hot hcf
    have hadj_zero : ∀ idx,
        lsum (neighborsAbove edges idx) (fun nb =>
          lsum (List.range num_colors) (fun color =>
            beta * bval z (composite_index idx num_colors color) *
              bval z (composite_index nb num_colors color))) = 0 := by
      intro idx
      have houter : ∀ nb ∈ neighborsAbove edges idx,
          lsum (List.range num_colors) (fun color =>
            beta * bval z (composite_index idx num_colors color) *
              bval z (composite_index nb num_colors color)) = 0 := by
        intro nb hnb
        rcases mem_neighborsAbove.mp hnb with ⟨e, he, hor⟩
        have hinner : ∀ color ∈ List.range num_colors,
            beta * bval z (composite_index idx num_colors color) *
              bval z (composite_index nb num_colors color) = 0 := by
          intro color hcolor
          have hcf' := hcf e he color (List.mem_range.mp hcolor)
          rcases hor with ⟨he1, hnb2, _⟩ | ⟨he2, hnb1, _⟩
          · rw [← he1, hnb2]
            exact bval_prod_zero hcf' beta
          · rw [← he2, hnb1]
            exact bval_prod_zero (fun hc => hcf' ⟨hc.2, hc.1⟩) beta
        rw [lsum_congr hinner, lsum_zero]
      rw [lsum_congr houter, lsum_zero]
    have hbody : ∀ idx ∈ List.range n,
        alpha * (cntTrue num_colors (fun c => z (composite_index idx num_colors c)) ^ 2 -
          2 * cntTrue num_colors (fun c => z (composite_index idx num_colors c))) +
        lsum (neighborsAbove edges idx) (fun nb =>
          lsum (List.range num_colors) (fun color =>
            beta * bval z (composite_index idx num_colors color) *
              bval z (composite_index nb num_colors color))) = -alpha := by
      intro idx hidx
      rw [h1hot idx (List.mem_range.mp hidx), hadj_zero idx]
      ring
    rw [hE, lsum_congr hbody, lsum_const]
    ring
  · intro hviol
    rcases not_and_or.mp hviol with hnoth | hnotc
    · unfold OneColorEach at hnoth
      push_neg at hnoth
      obtain ⟨v₀, hv₀n, hv₀⟩ := hnoth
      have hnode0 : 0 ≤ alpha *
          (cntTrue num_colors (fun c => z (composite_index v₀ num_colors c)) ^ 2 -
            2 * cntTrue num_colors (fun c => z (composite_index v₀ num_colors c))) := by
        have hne : cntTrue num_colors (fun c => z (composite_index v₀ num_colors c)) - 1 ≠ 0 := by
          omega
        have habs := Int.one_le_abs hne
        have hsq : (1 : ℤ) ≤
            (cntTrue num_colors (fun c => z (composite_index v₀ num_colors c)) - 1) ^ 2 := by
          have := sq_abs (cntTrue num_colors (fun c => z (composite_index v₀ num_colors c)) - 1)
          nlinarith [abs_nonneg (cntTrue num_colors (fun c => z (composite_index v₀ num_colors c)) - 1)]
        nlinarith
      have hlow := lsum_lower_bound (c := -alpha) (δ := alpha)
        (F := fun idx =>
          alpha * (cntTrue num_colors (fun c => z (composite_index idx num_colors c)) ^ 2 -
            2 * cntTrue num_colors (fun c => z (composite_index idx num_colors c))) +
          lsum (neighborsAbove edges idx) (fun nb =>
            lsum (List.range num_colors) (fun color =>
              beta * bval z (composite_index idx num_colors color) *
                bval z (composite_index nb num_colors color))))
        hv₀n
        (fun v _ => by
          dsimp only
          have := hnode_lb v
          have := hadj_nonneg v
          omega)
        (by
          dsimp only
          have := hadj_nonneg v₀
          omega)
      rw [hE]
      linarith
    · unfold ConflictFree at hnotc
      push_neg at hnotc
      obtain ⟨e, he, c, hcK, hz1, hz2⟩ := hnotc
      obtain ⟨hne, h1n, h2n⟩ := hedges e he
      have hkey : ∃ idx nb, idx < n ∧ nb ∈ neighborsAbove edges idx ∧
          z (composite_index idx num_colors c) = true ∧
          z (composite_index nb num_colors c) = true := by
        rcases Nat.lt_or_ge e.1 e.2 with h | h
        · exact ⟨e.1, e.2, h1n,
            mem_neighborsAbove.mpr ⟨e, he, Or.inl ⟨rfl, rfl, h⟩⟩, hz1, hz2⟩
        · have h' : e.2 < e.1 := by omega
          exact ⟨e.2, e.1, h2n,
            mem_neighborsAbove.mpr ⟨e, he, Or.inr ⟨rfl, rfl, h'⟩⟩, hz2, hz1⟩
      obtain ⟨idx, nb, hidxn, hnbmem, hzi, hznb⟩ := hkey
      have hterm : beta * bval z (composite_index idx num_colors c) *
          bval z (composite_index nb num_colors c) = beta := by
        rw [bval_true hzi, bval_true hznb]
        ring
      have hinner_ge : beta ≤ lsum (List.range num_colors) (fun color =>
          beta * bval z (composite_index idx num_colors color) *
            bval z (composite_index nb num_colors color)) := by
        have hmem := List.mem_range.mpr hcK
        have := lsum_le_of_mem (f := fun color =>
            beta * bval z (composite_index idx num_colors color) *
              bval z (composite_index nb num_colors color))
          (fun i _ => mul_nonneg (mul_nonneg hbeta.le (bval_nonneg _ _)) (bval_nonneg _ _))
          hmem
        dsimp only at this
        omega
      have hadj_ge : beta ≤ lsum (neighborsAbove edges idx) (fun nb' =>
          lsum (List.range num_colors) (fun color =>
            beta * bval z (composite_index idx num_colors color) *
              bval z (composite_index nb' num_colors color))) := by
        have := lsum_le_of_mem (f := fun nb' =>
            lsum (List.range num_colors) (fun color =>
              beta * bval z (composite_index idx num_colors color) *
                bval z (composite_index nb' num_colors color)))
          (fun nb' _ => by
            apply lsum_nonneg
            intro color _
            exact mul_nonneg (mul_nonneg hbeta.le (bval_nonneg _ _)) (bval_nonneg _ _))
          hnbmem
        dsimp only at this
        omega
      have hlow := lsum_lower_bound (c := -alpha) (δ := beta)
        (F := fun idx' =>
          alpha * (cntTrue num_colors (fun c => z (composite_index idx' num_colors c)) ^ 2 -
            2 * cntTrue num_colors (fun c => z (composite_index idx' num_colors c))) +
          lsum (neighborsAbove edges idx') (fun nb' =>
            lsum (List.range num_colors) (fun color =>
              beta * bval z (composite_index idx' num_colors color) *
                bval z (composite_index nb' num_colors color))))
        hidxn
        (fun v _ => by
          dsimp only
          have := hnode_lb v
          have := hadj_nonneg v
          omega)
        (by
          dsimp only
          have := hnode_lb idx
          omega)
      rw [hE]
      linarith

/-- C9: the composite variable index of `build_graph_coloring` inverts
exactly under division and remainder by the group size. -/
theorem composite_index_roundtrip (node_index group_size sub_index : ℕ)
    (h : sub_index < group_size) :
    composite_index node_index group_size sub_index / group_size = node_index ∧
      composite_index node_index group_size sub_index % group_size = sub_index := by
  unfold composite_index
  constructor
  · rw [Nat.mul_comm node_index group_size, Nat.mul_add_div (by omega),
      Nat.div_eq_of_lt h]
    omega
  · rw [Nat.mul_comm node_index group_size, Nat.mul_add_mod, Nat.mod_eq_of_lt h]

/-- C2 counterexample: in the concrete scenario the map's entry at the
claimed key `(8,8)` is `2^6 = 64`, not `r^2 = 121`, and the entry at
`(4,8)` is `-144`, not `-198` — index `8` is the fourth power-of-two bit,
not the remainder bit. -/
theorem knapsack_aux_concrete_counterexample :
    qget (build_knapsack_with_aux [12, 7, 11, 8, 9] [24, 13, 23, 15, 16] 26 1 1)
        (8, 8) = some 64 ∧
      qget (build_knapsack_with_aux [12, 7, 11, 8, 9] [24, 13, 23, 15, 16] 26 1 1)
        (8, 8) ≠ some 121 ∧
      qget (build_knapsack_with_aux [12, 7, 11, 8, 9] [24, 13, 23, 15, 16] 26 1 1)
        (4, 8) = some (-144) := by
  decide

/-- C2 amended: `m = 4`, `r = 11`, diagonal `(5,5) = 1` as claimed; the
remainder bit sits at index `9 = n + m`, so the remainder diagonal is
`(9,9) = 121` and the weight-9 cross term is `(4,9) = -198`, while
`(8,8) = 64` and `(4,8) = -144`. -/
theorem knapsack_aux_concrete_amended :
    ilog2 26 = 4 ∧ remainderWeight 26 = 11 ∧
      qget (build_knapsack_with_aux [12, 7, 11, 8, 9] [24, 13, 23, 15, 16] 26 1 1)
        (5, 5) = some 1 ∧
      qget (build_knapsack_with_aux [12, 7, 11, 8, 9] [24, 13, 23, 15, 16] 26 1 1)
        (9, 9) = some 121 ∧
      qget (build_knapsack_with_aux [12, 7, 11, 8, 9] [24, 13, 23, 15, 16] 26 1 1)
        (4, 9) = some (-198) ∧
      qget (build_knapsack_with_aux [12, 7, 11, 8, 9] [24, 13, 23, 15, 16] 26 1 1)
        (8, 8) = some 64 ∧
      qget (build_knapsack_with_aux [12, 7, 11, 8, 9] [24, 13, 23, 15, 16] 26 1 1)
        (4, 8) = some (-144) := by
  decide

/-- C3 counterexample: with no items and capacity `1`, the auxiliary-bit
knapsack compiler still emits the remainder-bit diagonal, so its map is
not empty. -/
theorem empty_items_aux_map_nonempty :
    build_knapsack_with_aux [] [] 1 1 1 ≠ [] := by
  decide

/-- C3 amended: on an empty entity set the five other compilers return an
empty coefficient map, but `build_knapsack_with_aux` keeps the
auxiliary-bit block and is never empty (its remainder diagonal is always
present). -/
theorem empty_entity_maps (k q' K c c' : ℕ) (alpha beta : ℤ) (hc : 1 ≤ c') :
    build_clique_k 0 [] k alpha beta = [] ∧
      build_graph_coloring 0 [] K alpha beta = [] ∧
      build_n_queen 0 [] q' alpha = [] ∧
      build_min_vertex_cover 0 [] alpha beta = [] ∧
      build_knapsack [] [] c alpha beta = [] ∧
      build_knapsack_with_aux [] [] c' alpha beta ≠ [] := by
  refine ⟨rfl, rfl, rfl, rfl, rfl, ?_⟩
  simp only [build_knapsack_with_aux, build_knapsack_with_aux_m]
  intro h
  rw [List.append_eq_nil] at h
  exact absurd h.2 (by simp)

/-- C7: `load_knapsack_data` raises the error of the first condition that
holds in the spec's fixed priority order (capacity emptiness, weights
emptiness, profits emptiness, length mismatch, non-positive weight,
negative capacity, capacity below minimum weight) and otherwise returns
the parsed triple unchanged. -/
theorem load_knapsack_data_priority (capacity_list weights profits : List ℤ) :
    load_knapsack_data capacity_list weights profits =
      loadKnapsackDataSpec capacity_list weights profits := by
  rcases capacity_list with _ | ⟨c0, cl⟩
  · rfl
  · rcases weights with _ | ⟨w0, ws⟩
    · rfl
    · rcases profits with _ | ⟨p0, ps⟩
      · rfl
      · by_cases h4 : ws.length = ps.length <;>
          by_cases h5 : (decide (w0 ≤ 0) || ws.any fun w => decide (w ≤ 0)) = true <;>
            by_cases h6 : c0 < 0 <;>
              by_cases h7 : c0 < pyMin (w0 :: ws) <;>
                unfold load_knapsack_data loadKnapsackDataSpec loadKnapsackChecks <;>
                  simp [h4, h5, h6, h7, List.find?]

theorem pyTokensAux_ne_nil : ∀ (l acc : List Char), acc ≠ [] →
    pyTokensAux l acc ≠ [] := by
  intro l
  induction l with
  | nil => intro acc h; simp [pyTokensAux, h]
  | cons c rest ih =>
      intro acc h
      by_cases hw : c.isWhitespace
      · simp [pyTokensAux, hw, h]
      · simp only [pyTokensAux, hw, if_false, Bool.false_eq_true]
        exact ih (c :: acc) (by simp)

theorem head_whitespace_of_tokens_nil {c : Char} {rest : List Char}
    (h : pyTokens (c :: rest) = []) : c.isWhitespace = true := by
  by_contra hw
  unfold pyTokens pyTokensAux at h
  rw [if_neg hw] at h
  exact pyTokensAux_ne_nil rest [c] (by simp) h

/-- A nonempty line with no whitespace-separated tokens makes the line
loop raise `IndexError` at `parts[0]`. -/
theorem processLine_blank {b : List Char} (hb : b ≠ []) (ht : pyTokens b = []) :
    processLine b = .error .indexError := by
  rcases b with _ | ⟨c, rest⟩
  · exact absurd rfl hb
  · have hw := head_whitespace_of_tokens_nil ht
    have hc : c ≠ 'c' := by
      intro hcc
      rw [hcc] at hw
      exact absurd hw (by decide)
    unfold processLine
    rw [if_neg]
    · rw [ht]
    · rintro (h | h)
      · simp at h
      · rw [List.head?_cons] at h
        exact hc (Option.some.inj h)

theorem readDimacsAux_blank : ∀ (pre : List (List Char)) (acc : List (ℤ × ℤ))
    (b : List Char) (rest : List (List Char)), b ≠ [] → pyTokens b = [] →
    (∀ l ∈ pre, (processLine l).isOk = true) →
    readDimacsAux acc (pre ++ b :: rest) = .error .indexError := by
  intro pre
  induction pre with
  | nil =>
      intro acc b rest hb ht _
      rw [List.nil_append]
      unfold readDimacsAux
      rw [processLine_blank hb ht]
  | cons l pre ih =>
      intro acc b rest hb ht hok
      have hl := hok l (List.mem_cons_self l pre)
      rw [List.cons_append]
      unfold readDimacsAux
      cases hpl : processLine l with
      | error e => rw [hpl] at hl; simp [Except.isOk, Except.toBool] at hl
      | ok o =>
          cases o with
          | none =>
              simp only []
              exact ih acc b rest hb ht (fun l' hl' => hok l' (List.mem_cons_of_mem l hl'))
          | some edge =>
              simp only []
              exact ih (acc ++ [edge]) b rest hb ht
                (fun l' hl' => hok l' (List.mem_cons_of_mem l hl'))

/-- C10 amended: if every line before it is processed without an
exception, a non-empty line with zero whitespace-separated tokens makes
`read_dimacs_graph` raise an uncaught `IndexError` (not the documented
`ValueError`), because only truly empty lines are skipped. -/
theorem read_dimacs_blank_line_index_error (pre : List (List Char))
    (b : List Char) (rest : List (List Char)) (hb : b ≠ [])
    (ht : pyTokens b = []) (hok : ∀ l ∈ pre, (processLine l).isOk = true) :
    read_dimacs_graph (pre ++ b :: rest) = .error .indexError :=
  readDimacsAux_blank pre [] b rest hb ht hok

/-- C10 counterexample: an input containing the whitespace-only line
`" "` after a malformed edge line raises the `ValueError` for the
malformed line, not `IndexError`, so the unconditional claim fails. -/
theorem read_dimacs_blank_line_counterexample :
    ([' '] : List Char) ≠ [] ∧ pyTokens [' '] = [] ∧
      [' '] ∈ [['e', ' ', '1', ' ', '2', ' ', '3'], [' ']] ∧
      read_dimacs_graph [['e', ' ', '1', ' ', '2', ' ', '3'], [' ']] =
        .error .malformedEdgeLine ∧
      (Except.error DimacsError.malformedEdgeLine ≠
        (Except.error DimacsError.indexError : Except DimacsError (List (ℤ × ℤ)))) := by
  exact ⟨by decide, by decide, by decide, rfl,
    fun h => absurd (Except.error.inj h) (by decide)⟩

theorem mem_qadd : ∀ (q : Qubo) (key : ℕ × ℕ) (v : ℤ),
    ∀ kv ∈ qadd q key v, kv.1 = key ∨ kv ∈ q := by
  intro q key v
  induction q with
  | nil =>
      intro kv h
      simp only [qadd, List.mem_singleton] at h
      subst h
      exact Or.inl rfl
  | cons e q ih =>
      intro kv h
      by_cases he : e.1 = key
      · simp only [qadd, if_pos he] at h
        rcases List.mem_cons.mp h with rfl | hmem
        · exact Or.inl rfl
        · exact Or.inr (List.mem_cons_of_mem e hmem)
      · simp only [qadd, if_neg he] at h
        rcases List.mem_cons.mp h with rfl | hmem
        · exact Or.inr (List.mem_cons_self kv q)
        · rcases ih kv hmem with hk | hq
          · exact Or.inl hk
          · exact Or.inr (List.mem_cons_of_mem e hq)

theorem mem_qset : ∀ (q : Qubo) (key : ℕ × ℕ) (v : ℤ),
    ∀ kv ∈ qset q key v, kv.1 = key ∨ kv ∈ q := by
  intro q key v
  induction q with
  | nil =>
      intro kv h
      simp only [qset, List.mem_singleton] at h
      subst h
      exact Or.inl rfl
  | cons e q ih =>
      intro kv h
      by_cases he : e.1 = key
      · simp only [qset, if_pos he] at h
        rcases List.mem_cons.mp h with rfl | hmem
        · exact Or.inl rfl
        · exact Or.inr (List.mem_cons_of_mem e hmem)
      · simp only [qset, if_neg he] at h
        rcases List.mem_cons.mp h with rfl | hmem
        · exact Or.inr (List.mem_cons_self kv q)
        · rcases ih kv hmem with hk | hq
          · exact Or.inl hk
          · exact Or.inr (List.mem_cons_of_mem e hq)

theorem mem_edge_fold {op : Qubo → ℕ × ℕ → ℤ → Qubo}
    (hop : ∀ (q : Qubo) (k : ℕ × ℕ) (v : ℤ), ∀ kv ∈ op q k v, kv.1 = k ∨ kv ∈ q)
    (c : ℤ) : ∀ (edges : List (ℕ × ℕ)) (q₀ : Qubo),
    ∀ kv ∈ edges.foldl
      (fun q e => if e.1 > e.2 then op q (e.2, e.1) c else op q (e.1, e.2) c) q₀,
    kv ∈ q₀ ∨ ∃ e ∈ edges,
      (e.2 < e.1 ∧ kv.1 = (e.2, e.1)) ∨ (e.1 ≤ e.2 ∧ kv.1 = (e.1, e.2)) := by
  intro edges
  induction edges with
  | nil =>
      intro q₀ kv h
      exact Or.inl (by simpa using h)
  | cons e es ih =>
      intro q₀ kv h
      rw [List.foldl_cons] at h
      rcases ih _ kv h with hq | ⟨e', he', hcase⟩
      · by_cases hgt : e.1 > e.2
        · rw [if_pos hgt] at hq
          rcases hop q₀ _ c kv hq with hk | hq0
          · exact Or.inr ⟨e, List.mem_cons_self e es, Or.inl ⟨hgt, hk⟩⟩
          · exact Or.inl hq0
        · rw [if_neg hgt] at hq
          rcases hop q₀ _ c kv hq with hk | hq0
          · exact Or.inr ⟨e, List.mem_cons_self e es, Or.inr ⟨by omega, hk⟩⟩
          · exact Or.inl hq0
      · exact Or.inr ⟨e', List.mem_cons_of_mem e he', hcase⟩

theorem mem_sizeConstraintBlock {n k : ℕ} {alpha : ℤ} {kv : (ℕ × ℕ) × ℤ}
    (h : kv ∈ sizeConstraintBlock n k alpha) :
    kv.1.1 ≤ kv.1.2 ∧ kv.1.2 < n := by
  unfold sizeConstraintBlock at h
  simp only [List.mem_flatMap, List.mem_range, List.mem_cons, List.mem_map] at h
  obtain ⟨i, hi, hcase⟩ := h
  rcases hcase with rfl | ⟨j, hj, rfl⟩
  · simp
    omega
  · have := List.mem_range'_1.mp hj
    simp
    omega

theorem composite_index_lt {v c n K : ℕ} (hv : v < n) (hc : c < K) :
    composite_index v K c < n * K := by
  unfold composite_index
  calc v * K + c < v * K + K := by omega
  _ = (v + 1) * K := by ring
  _ ≤ n * K := Nat.mul_le_mul_right K hv

theorem mem_build_graph_coloring_keys {n K : ℕ} {edges : List (ℕ × ℕ)}
    {alpha beta : ℤ} {kv : (ℕ × ℕ) × ℤ}
    (hedges : ∀ e ∈ edges, e.1 < n ∧ e.2 < n)
    (h : kv ∈ build_graph_coloring n edges K alpha beta) :
    kv.1.1 ≤ kv.1.2 ∧ kv.1.2 < n * K := by
  unfold build_graph_coloring at h
  simp only [List.mem_flatMap, List.mem_range, List.mem_append, List.mem_cons,
    List.mem_map] at h
  obtain ⟨idx, hidx, h⟩ := h
  rcases h with ⟨color, hcolor, hcase⟩ | ⟨nb, hnb, color, hcolor, rfl⟩
  · rcases hcase with rfl | ⟨c, hc, rfl⟩
    · exact ⟨le_rfl, composite_index_lt hidx hcolor⟩
    · have hc' := List.mem_range'_1.mp hc
      constructor
      · show composite_index idx K color ≤ composite_index idx K c
        unfold composite_index
        omega
      · exact composite_index_lt hidx (by omega)
  · rcases mem_neighborsAbove.mp hnb with ⟨e, he, hor⟩
    have hnbn : nb < n ∧ idx < nb := by
      rcases hor with ⟨_, h2, h3⟩ | ⟨_, h2, h3⟩
      · exact ⟨h2 ▸ (hedges e he).2, h2 ▸ h3⟩
      · exact ⟨h2 ▸ (hedges e he).1, h2 ▸ h3⟩
    constructor
    · show composite_index idx K color ≤ composite_index nb K color
      unfold composite_index
      have : idx * K ≤ nb * K := Nat.mul_le_mul_right K (by omega)
      omega
    · exact composite_index_lt hnbn.1 hcolor

theorem mem_build_knapsack_keys {weights profits : List ℤ} {capacity : ℕ}
    {alpha beta : ℤ} {kv : (ℕ × ℕ) × ℤ}
    (h : kv ∈ build_knapsack weights profits capacity alpha beta) :
    kv.1.1 ≤ kv.1.2 ∧ kv.1.2 < weights.length := by
  unfold build_knapsack at h
  simp only [List.mem_flatMap, List.mem_range, List.mem_cons, List.mem_map] at h
  obtain ⟨i, hi, hcase⟩ := h
  rcases hcase with rfl | ⟨j, hj, rfl⟩
  · simp
    omega
  · have := List.mem_range'_1.mp hj
    simp
    omega

theorem mem_build_knapsack_with_aux_keys {weights profits : List ℤ} {capacity : ℕ}
    {alpha beta : ℤ} {kv : (ℕ × ℕ) × ℤ}
    (h : kv ∈ build_knapsack_with_aux weights profits capacity alpha beta) :
    kv.1.1 ≤ kv.1.2 ∧ kv.1.2 < weights.length + ilog2 capacity + 1 := by
  simp only [build_knapsack_with_aux, build_knapsack_with_aux_m,
    List.mem_append] at h
  rcases h with (h | h) | h
  · unfold knapsackItemsBlock at h
    simp only [List.mem_flatMap, List.mem_range, List.mem_append, List.mem_cons,
      List.mem_map, List.mem_singleton, List.not_mem_nil, or_false] at h
    obtain ⟨i, hi, hcase⟩ := h
    rcases hcase with (rfl | ⟨j, hj, rfl⟩) | (⟨k', hk, rfl⟩ | rfl)
    · simp
      omega
    · have := List.mem_range'_1.mp hj
      simp
      omega
    · simp
      omega
    · simp
      omega
  · unfold knapsackAuxBlock at h
    simp only [List.mem_flatMap, List.mem_range, List.mem_append, List.mem_cons,
      List.mem_map, List.mem_singleton, List.not_mem_nil, or_false] at h
    obtain ⟨i, hi, hcase⟩ := h
    rcases hcase with (rfl | ⟨j, hj, rfl⟩) | rfl
    · simp
      omega
    · have := List.mem_range'_1.mp hj
      simp
      omega
    · simp
      omega
  · simp only [List.mem_singleton] at h
    subst h
    simp

/-- C8: for every compiler and every input, each key `(i, j)` of the
returned map satisfies `i ≤ j` and both indices fall inside the index
range assigned for that compilation (`n` nodes for clique, n-queens and
vertex cover, `n * num_colors` for coloring, `n` items for the simple
knapsack, and `n + m + 1` variables for the auxiliary-bit knapsack). -/
theorem compiler_keys_in_range :
    (∀ (n : ℕ) (edges : List (ℕ × ℕ)) (k : ℕ) (alpha beta : ℤ),
      (∀ e ∈ edges, e.1 < n ∧ e.2 < n) →
      ∀ kv ∈ build_clique_k n edges k alpha beta,
        kv.1.1 ≤ kv.1.2 ∧ kv.1.2 < n)
    ∧ (∀ (n : ℕ) (edges : List (ℕ × ℕ)) (num_colors : ℕ) (alpha beta : ℤ),
      (∀ e ∈ edges, e.1 < n ∧ e.2 < n) →
      ∀ kv ∈ build_graph_coloring n edges num_colors alpha beta,
        kv.1.1 ≤ kv.1.2 ∧ kv.1.2 < n * num_colors)
    ∧ (∀ (node_number : ℕ) (edges : List (ℕ × ℕ)) (q : ℕ) (alpha : ℤ),
      (∀ e ∈ edges, e.1 < node_number ∧ e.2 < node_number) →
      ∀ kv ∈ build_n_queen node_number edges q alpha,
        kv.1.1 ≤ kv.1.2 ∧ kv.1.2 < node_number)
    ∧ (∀ (n : ℕ) (edges : List (ℕ × ℕ)) (alpha beta : ℤ),
      (∀ e ∈ edges, e.1 < n ∧ e.2 < n) →
      ∀ kv ∈ build_min_vertex_cover n edges alpha beta,
        kv.1.1 ≤ kv.1.2 ∧ kv.1.2 < n)
    ∧ (∀ (weights profits : List ℤ) (capacity : ℕ) (alpha beta : ℤ),
      ∀ kv ∈ build_knapsack weights profits capacity alpha beta,
        kv.1.1 ≤ kv.1.2 ∧ kv.1.2 < weights.length)
    ∧ (∀ (weights profits : List ℤ) (capacity : ℕ) (alpha beta : ℤ),
      ∀ kv ∈ build_knapsack_with_aux weights profits capacity alpha beta,
        kv.1.1 ≤ kv.1.2 ∧ kv.1.2 < weights.length + ilog2 capacity + 1) := by
  refine ⟨?_, ?_, ?_, ?_, ?_, ?_⟩
  · intro n edges k alpha beta hedges kv h
    unfold build_clique_k at h
    rcases mem_edge_fold mem_qadd (-beta) edges _ kv h with hbase | ⟨e, he, hc⟩
    · exact mem_sizeConstraintBlock hbase
    · have := hedges e he
      rcases hc with ⟨h1, h2⟩ | ⟨h1, h2⟩ <;> rw [h2] <;> constructor <;> simp <;> omega
  · intro n edges num_colors alpha beta hedges kv h
    exact mem_build_graph_coloring_keys hedges h
  · intro node_number edges q alpha hedges kv h
    unfold build_n_queen at h
    rcases mem_edge_fold mem_qadd alpha edges _ kv h with hbase | ⟨e, he, hc⟩
    · exact mem_sizeConstraintBlock hbase
    · have := hedges e he
      rcases hc with ⟨h1, h2⟩ | ⟨h1, h2⟩ <;> rw [h2] <;> constructor <;> simp <;> omega
  · intro n edges alpha beta hedges kv h
    unfold build_min_vertex_cover at h
    rcases mem_edge_fold mem_qset alpha edges _ kv h with hbase | ⟨e, he, hc⟩
    · simp only [List.mem_map, List.mem_range] at hbase
      obtain ⟨i, hi, rfl⟩ := hbase
      simp
      omega
    · have := hedges e he
      rcases hc with ⟨h1, h2⟩ | ⟨h1, h2⟩ <;> rw [h2] <;> constructor <;> simp <;> omega
  · intro weights profits capacity alpha beta kv h
    exact mem_build_knapsack_keys h
  · intro weights profits capacity alpha beta kv h
    exact mem_build_knapsack_with_aux_keys h

theorem knapsack_aux_zero_penalty_witness :
    ∃ b : ℕ → Bool,
      energy (build_knapsack_with_aux [1] [1] 1 1 1)
        (combineAssign 1 (fun _ => true) b) =
      -1 * wsum (listVal [1]) 1 (fun _ => true) :=
  (knapsack_aux_zero_penalty_iff [1] [1] 1 1 1 (fun _ => true) (by decide)
    (by decide) rfl (by decide)).1.mpr (by decide)

theorem empty_entity_maps_witness :
    build_clique_k 0 [] 3 1 1 = [] ∧
      build_graph_coloring 0 [] 2 1 1 = [] ∧
      build_n_queen 0 [] 4 1 = [] ∧
      build_min_vertex_cover 0 [] 1 1 = [] ∧
      build_knapsack [] [] 5 1 1 = [] ∧
      build_knapsack_with_aux [] [] 1 1 1 ≠ [] :=
  empty_entity_maps 3 4 2 5 1 1 1 (by decide)

theorem clique_energy_witness :
    energy (build_clique_k 3 [(0, 1), (0, 2), (1, 2)] 3 2 1)
        (fun i => decide (i < 3)) + cliqueOffset 3 2 1 = 0 :=
  (clique_energy_characterization 3 3 [(0, 1), (0, 2), (1, 2)] 2 1
    (fun i => decide (i < 3)) (by decide) (by decide) (by decide)).1
    (by
      unfold IsCliqueSel
      intro b hb a ha hza hzb
      interval_cases b <;> interval_cases a <;> simp)

theorem coloring_energy_witness :
    energy (build_graph_coloring 2 [(0, 1)] 2 1 1)
        (fun i => decide (i = 0 ∨ i = 3)) = -1 * ((2 : ℕ) : ℤ) :=
  (coloring_energy_characterization 2 2 [(0, 1)] 1 1
    (fun i => decide (i = 0 ∨ i = 3)) (by decide) (by decide) (by decide)).1
    (by unfold OneColorEach; decide) (by unfold ConflictFree; decide)

theorem size_constraint_amended_witness :
    energy (sizeConstraintBlock 2 1 1) (fun i => decide (i = 0)) +
      1 * ((1 : ℕ) : ℤ) ^ 2 = 0 :=
  (size_constraint_amended 2 1 1 (fun i => decide (i = 0)) (by decide)).2.1.mpr
    (by decide)

theorem compiler_keys_in_range_witness : (0 : ℕ) ≤ 1 ∧ 1 < 2 :=
  compiler_keys_in_range.1 2 [(0, 1)] 2 1 1 (by decide) ((0, 1), 1) (by decide)

theorem composite_index_roundtrip_witness :
    composite_index 7 5 3 / 5 = 7 ∧ composite_index 7 5 3 % 5 = 3 :=
  composite_index_roundtrip 7 5 3 (by decide)

theorem read_dimacs_blank_line_witness :
    read_dimacs_graph [['c', 'x'], [' ', ' ']] = .error .indexError :=
  read_dimacs_blank_line_index_error [['c', 'x']] [' ', ' '] [] (by decide)
    (by decide) (by decide)

end Quboin
